import Mathlib

/-!
Verification of the aarm-risc0 resource machine core.

This file shallowly embeds the commitment-tree, transaction and ledger code of
`host-old/src/main.rs` together with the `MerklePath` code of
`native/aarm_core/src/merkle_path.rs`, and proves or refutes the specified
properties about them.

Conventions of the embedding:
* Rust `Vec<Node>` becomes `List Node`; `usize` arithmetic becomes `Nat`
  (all the widths and indices involved are small and never overflow).
* Rust indexing `v[i]`, which panics when out of bounds, becomes `List.get?`
  inside `Option` where the claim is about the absence of such panics, and
  slices `v[a..b]` become `(v.drop a).take (b - a)`.
* `Result<(), E>` on a `&mut self` method becomes a pure function returning
  `Option E × State`, so that partial mutation before an error would be
  observable, exactly as it would be through Rust's `&mut` reference.
* The hash function itself is an external collaborator (risc0 SHA-256); it is
  kept abstract behind the `Hashable` interface, exactly as the Rust code is
  generic over `Node: Hashable`.
-/

namespace Aarm

/-- Hashable trait of the old `aarm_core` used by `host-old/src/main.rs`:
`combine` takes the tree height (domain separation per row) and the two
children; `blank` is the canonical empty leaf. -/
class Hashable (Node : Type) where
  combine : Nat → Node → Node → Node
  blank : Node

export Hashable (combine blank)

variable {Node : Type} [Hashable Node]

/-- Root of an all-blank subtree of the given height: `emptyRoot 0 = blank`,
`emptyRoot (h+1) = combine h (emptyRoot h) (emptyRoot h)`.  This is the value
the Rust code maintains in its `empty_root` variables. -/
def emptyRoot : Nat → Node
  | 0 => blank
  | h + 1 => combine h (emptyRoot h) (emptyRoot h)

/-- Type `CommitmentTree<DEPTH, Node>(Vec<Node>, usize)` from `host-old/src/main.rs`:
all rows of the Merkle tree in one flat vector (leaves first, root last), plus
the number of leaves. -/
@[ext]
structure CommitmentTree (Node : Type) where
  nodes : List Node
  size : Nat
deriving DecidableEq

/-- Loop body of `CommitmentTree::complete`: builds the rows from `height`
up, `fuel` many of them (`fuel = DEPTH - heightp`).  `er` is the running
`empty_root` value. -/
def completeAux : List Node → Nat → Nat → Nat → Node → Nat → List Node
  | tree, _, _, _, _, 0 => tree
  | tree, prevStart, prevWidth, height, er, fuel + 1 =>
    -- if the row is odd, a dummy for the right-most parent's right child
    let w := if prevWidth % 2 = 1 then prevWidth + 1 else prevWidth
    let tree1 := if prevWidth % 2 = 1 then tree ++ [er] else tree
    -- the nodes of the next row dependent upon the previous row
    let newRow := (List.range (w / 2)).map fun j =>
      combine height (tree1.getD (prevStart + 2 * j) blank)
        (tree1.getD (prevStart + 2 * j + 1) blank)
    completeAux (tree1 ++ newRow) (prevStart + w) (w / 2) (height + 1)
      (combine height er er) fuel

/-- Method `CommitmentTree::complete`: complete the construction of the Merkle tree
given the highest row data. -/
def CommitmentTree.complete (D : Nat) (tree : List Node)
    (prevStart prevWidth heightp leafs : Nat) : CommitmentTree Node :=
  -- compute the empty root for the given depth
  let er := (List.range heightp).foldl (fun x i => combine i x x) blank
  ⟨completeAux tree prevStart prevWidth heightp er (D - heightp), leafs⟩

/-- Method `CommitmentTree::new`: construct a commitment tree with the given leaves. -/
def CommitmentTree.new (D : Nat) (leafs : List Node) : CommitmentTree Node :=
  CommitmentTree.complete D leafs 0 leafs.length 0 leafs.length

/-- Method `CommitmentTree::root`: the last node of the flat vector, or the all-blank
root of the full depth for an empty tree. -/
def CommitmentTree.root (D : Nat) (t : CommitmentTree Node) : Node :=
  t.nodes.getLast?.getD ((List.range D).foldl (fun x i => combine i x x) blank)

/-- Method `CommitmentTree::size`: the number of leaf nodes in the tree. -/
def CommitmentTree.treeSize (t : CommitmentTree Node) : Nat := t.size

/-- Type `MerklePath<DEPTH, Node>` of the old `aarm_core` used by
`host-old/src/main.rs`: one `(sibling, leaf_is_on_right)` pair per level plus
the leaf position. -/
structure MerklePath (Node : Type) where
  auth_path : List (Node × Bool)
  position : Nat
deriving DecidableEq

/-- Loop body of `CommitmentTree::path`.  Every Rust index `self.0[i]` is an
`Option`-returning `List.get?`, so `none` marks exactly an out-of-bounds
panic of the original code. -/
def pathAux (nodes : List Node) :
    Nat → Nat → Nat → Node → Nat → Nat → Option (List (Node × Bool))
  | _, _, _, _, _, 0 => some []
  | pos, start, width, er, height, fuel + 1 =>
    let w := if width % 2 = 1 then width + 1 else width
    let entry : Option (Node × Bool) :=
      if pos % 2 = 0 then
        -- the current node is a left child
        if pos + 1 < w then (nodes.get? (start + pos + 1)).map (fun n => (n, false))
        else some (er, false)
      else
        -- the current node is a right child
        if pos - 1 < w then (nodes.get? (start + pos - 1)).map (fun n => (n, true))
        else some (er, true)
    match entry,
        pathAux nodes (pos / 2) (start + w) (w / 2) (combine height er er)
          (height + 1) fuel with
    | some e, some rest => some (e :: rest)
    | _, _ => none

/-- Method `CommitmentTree::path`: construct a Merkle path to the given position. -/
def CommitmentTree.path (D : Nat) (t : CommitmentTree Node) (pos : Nat) :
    Option (MerklePath Node) :=
  (pathAux t.nodes pos 0 t.size blank 0 D).map fun l => ⟨l, pos⟩

/-- Fold of `MerklePath::root` with an explicit height counter. -/
def MerklePath.rootAux : Nat → List (Node × Bool) → Node → Node
  | _, [], leaf => leaf
  | h, (p, onRight) :: rest, leaf =>
    MerklePath.rootAux (h + 1) rest
      (if onRight then combine h p leaf else combine h leaf p)

/-- Modelled from the spec: `MerklePath::root` of the old `aarm_core` crate
that `host-old/src/main.rs` links against is not under `src/` (only the newer
single-type-parameter variant is).  Per the spec, the path is "one pair per
tree level", the boolean flags whether the leaf side is on the right, and the
height-domain-separated `combine` is applied at every level, so the root is
the fold of `combine height` over the path from the leaf up. -/
def MerklePath.root (p : MerklePath Node) (leaf : Node) : Node :=
  MerklePath.rootAux 0 p.auth_path leaf

/-- Loop of `CommitmentTree::merge`: walks the rows of the already-built
subtrees, copying them into the merged vector, until the tops of the full
trees are reached.  Arguments mirror the Rust mutables:
tree, prev_first_start, prev_first_width, prev_last_start, prev_last_width,
prev_start, prev_width, height; `fuel` bounds the loop. -/
def mergeAux (full : List (CommitmentTree Node)) (lastT : CommitmentTree Node) :
    List Node → Nat → Nat → Nat → Nat → Nat → Nat → Nat → Nat →
    List Node × Nat × Nat × Nat
  | tree, _, _, _, _, ps, pw, height, 0 => (tree, ps, pw, height)
  | tree, ffs, ffw, fls, flw, ps, pw, height, fuel + 1 =>
    -- need to make sure that right child is present for parent
    let flw2 := if flw % 2 = 1 ∧ 1 < ffw then flw + 1 else flw
    let pw2 := if flw % 2 = 1 ∧ 1 < ffw then pw + 1 else pw
    -- combine all the rows at the current level
    let tree2 := tree ++ (full.map fun st => (st.nodes.drop ffs).take ffw).flatten
      ++ (lastT.nodes.drop fls).take flw2
    -- quit when we are at the top of the full trees
    if ffw = 1 then (tree2, ps, pw2, height)
    else
      mergeAux full lastT tree2 (ffs + ffw) (ffw / 2) (fls + flw2) (flw2 / 2)
        (ps + pw2) (pw2 / 2) (height + 1) fuel

/-- Method `CommitmentTree::merge`: merge full Merkle trees with a last possibly
unfilled one.  The Rust asserts about the subtree sizes become hypotheses of
the theorems about `merge`. -/
def CommitmentTree.merge (D : Nat) (subtrees : List (CommitmentTree Node)) :
    CommitmentTree Node :=
  match subtrees with
  | [] => ⟨[], 0⟩
  | [t] => t
  | t0 :: t1 :: ts =>
    let subs := t0 :: t1 :: ts
    let sz := t0.size
    let lastT := subs.getLastD t0
    let full := subs.dropLast
    let flw0 := lastT.size
    let pw0 := (subs.length - 1) * sz + flw0
    let r := mergeAux full lastT [] 0 sz 0 flw0 0 pw0 0 sz
    CommitmentTree.complete D r.1 r.2.1 r.2.2.1 r.2.2.2 pw0

/-- Concrete hashable instance used by the witnesses: an injective pairing of
the height and the two children, so evaluation is cheap and collisions do not
occur accidentally. -/
instance : Hashable Nat where
  combine h l r := Nat.pair h (Nat.pair l r) + 1
  blank := 0

/-! Row-level description of the flat vector built by `complete`, used to
state and prove the structural lemmas about the tree code.  `padRow` is the
odd-row padding rule, `combineRow` one hashing pass, `rows L h` the `h`-th
row of the conceptual tree over leaves `L`, and `flatRows h fuel r` the part
of the flat vector that `complete` emits from row `r` at height `h` up. -/

/-- Pad an odd row with the empty root for its height. -/
def padRow (h : Nat) (r : List Node) : List Node :=
  if r.length % 2 = 1 then r ++ [emptyRoot h] else r

/-- Combine adjacent pairs of an (even-length) row into the next row. -/
def combineRow (h : Nat) : List Node → List Node
  | [] => []
  | [_] => []
  | a :: b :: rest => combine h a b :: combineRow h rest

/-- The row of the conceptual depth-unbounded tree at each height. -/
def rows (L : List Node) : Nat → List Node
  | 0 => L
  | h + 1 => combineRow h (padRow h (rows L h))

/-- The flat storage that `complete` appends from a row upward: each level
contributes its padded row, the last level is stored unpadded. -/
def flatRows : Nat → Nat → List Node → List Node
  | _, 0, r => r
  | h, fuel + 1, r => padRow h r ++ flatRows (h + 1) fuel (combineRow h (padRow h r))

/-- Iterated ceiling halving: the width of row `h` over `n` leaves. -/
def widthAt (n : Nat) : Nat → Nat
  | 0 => n
  | h + 1 => (widthAt n h + 1) / 2

/-- Width of the padded row at each height. -/
def padWidth (n h : Nat) : Nat := widthAt n h + widthAt n h % 2

/-- Offset of row `h` inside the flat vector of a tree over `n` leaves. -/
def offsetN (n : Nat) : Nat → Nat
  | 0 => 0
  | h + 1 => offsetN n h + padWidth n h

/-- Flat storage below height `h`: concatenation of the padded rows. -/
def rowsBelow (L : List Node) : Nat → List Node
  | 0 => []
  | h + 1 => rowsBelow L h ++ padRow h (rows L h)

/-- The authentication-path entries that `CommitmentTree::path` extracts,
expressed against the conceptual rows: the sibling inside the padded row if
the position is within its width, the empty root for that height otherwise. -/
def specPath (L : List Node) : Nat → Nat → Nat → List (Node × Bool)
  | _, _, 0 => []
  | h, pos, f + 1 =>
    (if pos % 2 = 0 then
      (if pos + 1 < (padRow h (rows L h)).length then
        (padRow h (rows L h)).getD (pos + 1) blank
      else emptyRoot h, false)
    else
      (if pos - 1 < (padRow h (rows L h)).length then
        (padRow h (rows L h)).getD (pos - 1) blank
      else emptyRoot h, true))
    :: specPath L (h + 1) (pos / 2) f

/-! The resource-machine ledger of `host-old/src/main.rs`.  A `Receipt` is an
external zkVM object; the ledger only observes, per `ProofRecord`, whether
`receipt.verify(image_id)` succeeds and the decoded journal fields, so the
record is embedded as exactly those observables.  `Result<(), E>` of a
`&mut self` method becomes `Option E × State` (`none` = `Ok(())`), keeping
any mutation made before an early error return observable. -/

/-- One proof record of a transaction, as observed by `ResourceMachine::apply`:
`verifies` is the outcome of `receipt.verify(image_id)`; `outRoot` and
`outNullifier` are the decoded `ConsumptionOutput` fields, `outCommitment`
the decoded `CreationOutput` field (both decodings of the same journal). -/
structure ProofRecord (Digest : Type) where
  imageId : Digest
  verifies : Bool
  outRoot : Digest
  outNullifier : Digest
  outCommitment : Digest
deriving DecidableEq

/-- Transaction: a list of proof records plus the running delta (the
`FieldElement` delta is embedded as an integer; `apply` never reads it). -/
structure Transaction (Digest : Type) where
  proofs : List (ProofRecord Digest)
  delta : Int
deriving DecidableEq

/-- Type `ResourceMachineError` of `host-old/src/main.rs`.  The payload of
`InvalidProof` is an opaque verifier error and is dropped. -/
inductive ResourceMachineError (Digest : Type) where
  | invalidProof
  | unknownRoot (d : Digest)
  | revealedNullifier (d : Digest)
  | duplicateCommitment (d : Digest)
deriving DecidableEq

/-- Type `ResourceMachine`: historical roots, revealed nullifiers, ordered
commitment list and the current commitment tree.  `BTreeSet` becomes
`Finset`. -/
structure ResourceMachine (Digest : Type) where
  roots : Finset Digest
  nullifiers : Finset Digest
  commitments : List Digest
  tree : CommitmentTree Digest
deriving DecidableEq

variable {Digest : Type} [DecidableEq Digest]

/-- One iteration of the verify pass of `ResourceMachine::apply`: the failure
this proof record causes against the given (read-only) ledger state, if any.
The branches mirror the `match proof.image_id.into()` of the source, with the
`CONSUME_RESOURCE_ID` arm checked before the `CREATE_RESOURCE_ID` arm. -/
def checkProof (consumeId createId : Digest) (rm : ResourceMachine Digest)
    (p : ProofRecord Digest) : Option (ResourceMachineError Digest) :=
  if p.verifies = false then some .invalidProof
  else if p.imageId = consumeId then
    if p.outRoot ∉ rm.roots then some (.unknownRoot p.outRoot)
    else if p.outNullifier ∈ rm.nullifiers then
      some (.revealedNullifier p.outNullifier)
    else none
  else if p.imageId = createId then
    if p.outCommitment ∈ rm.commitments then
      some (.duplicateCommitment p.outCommitment)
    else none
  else none

/-- One iteration of the commit pass of `ResourceMachine::apply`: reveal the
nullifier of a consumption, append the commitment of a creation. -/
def commitProof (consumeId createId : Digest) (rm : ResourceMachine Digest)
    (p : ProofRecord Digest) : ResourceMachine Digest :=
  if p.imageId = consumeId then
    { rm with nullifiers := insert p.outNullifier rm.nullifiers }
  else if p.imageId = createId then
    { rm with commitments := rm.commitments ++ [p.outCommitment] }
  else rm

/-- Method `ResourceMachine::apply`: first the read-only verify
pass over all proofs, aborting on the first failure with the pre-call state
intact; then the commit pass, the rebuild of the commitment tree from the
full commitment list, and the recording of its root. -/
def ResourceMachine.apply [Hashable Digest] (D : Nat)
    (consumeId createId : Digest) (rm : ResourceMachine Digest)
    (tx : Transaction Digest) :
    Option (ResourceMachineError Digest) × ResourceMachine Digest :=
  match tx.proofs.findSome? (checkProof consumeId createId rm) with
  | some e => (some e, rm)
  | none =>
    let rm1 := tx.proofs.foldl (commitProof consumeId createId) rm
    let tree := CommitmentTree.new D rm1.commitments
    (none, { rm1 with tree := tree, roots := insert (tree.root D) rm1.roots })

/-- Apply a sequence of transactions, keeping the pre-call state whenever one
is rejected (exactly what the caller of `apply` observes through `&mut`). -/
def applyChain [Hashable Digest] (D : Nat) (consumeId createId : Digest)
    (rm : ResourceMachine Digest) (txs : List (Transaction Digest)) :
    ResourceMachine Digest :=
  txs.foldl (fun s t => (ResourceMachine.apply D consumeId createId s t).2) rm

/-! `Transaction::add_input` and the resource identity model.  The `Resource`
type, `Nsk` and `Resource::nullifier` live in the old `aarm_core` crate which
is not under `src/`, so they are modelled from the spec. -/

/-- Modelled from the spec: the resource record (application image, label and
value references, quantity, ephemeral flag, nonce, nullifier-key commitment
`npk`, randomness seed); `Resource` of the old `aarm_core` is not under
`src/`. -/
structure Resource (Digest : Type) where
  image_id : Digest
  label : Digest
  value_ref : Digest
  quantity : Nat
  is_ephemeral : Bool
  nonce : Digest
  npk : Digest
  rseed : Digest
deriving DecidableEq

/-- Type `TransactionError` of `host-old/src/main.rs`; the `anyhow::Error`
payloads of the prover failures are opaque and dropped. -/
inductive TransactionError (Nsk : Type) where
  | incorrectNullifierSecretKey (nsk : Nsk)
  | resourceLogicFailure
  | resourceComplianceFailure
deriving DecidableEq

/-- Modelled from the spec: `nullifier(resource, nullifier_secret)` fails
with `None` if the secret does not correspond to the resource's recorded
nullifier-key commitment, and otherwise returns a hash combining the
commitment and the secret.  `public_key`, `commitmentHash` and
`nullifierHash` are the external hash collaborators. -/
def Resource.nullifier {Nsk : Type} (public_key : Nsk → Digest)
    (commitmentHash : Resource Digest → Digest)
    (nullifierHash : Digest → Nsk → Digest)
    (r : Resource Digest) (nsk : Nsk) : Option Digest :=
  if public_key nsk = r.npk then some (nullifierHash (commitmentHash r) nsk)
  else none

/-- Method `Transaction::add_input` of `host-old/src/main.rs`: reject a wrong
nullifier secret key before touching the transaction; then update the delta,
run the resource-logic prover and the consumption-compliance prover (both
external, given here as their outcomes for these inputs: `none` is a prover
failure), and only on full success push the resulting proof record. -/
def Transaction.add_input {Nsk : Type} (public_key : Nsk → Digest)
    (commitmentHash : Resource Digest → Digest)
    (nullifierHash : Digest → Nsk → Digest)
    (deltaFn : Resource Digest → Int)
    (resourceProof : Option Unit)
    (complianceProof : Option (ProofRecord Digest))
    (tx : Transaction Digest) (_path : MerklePath Digest)
    (resource : Resource Digest) (nsk : Nsk) :
    Option (TransactionError Nsk) × Transaction Digest :=
  if (Resource.nullifier public_key commitmentHash nullifierHash resource
      nsk).isNone then
    (some (.incorrectNullifierSecretKey nsk), tx)
  else
    let tx1 := { tx with delta := tx.delta + deltaFn resource }
    match resourceProof with
    | none => (some .resourceLogicFailure, tx1)
    | some _ =>
      match complianceProof with
      | none => (some .resourceComplianceFailure, tx1)
      | some pr => (none, { tx1 with proofs := tx1.proofs ++ [pr] })

/-! The newer `MerklePath` of `native/aarm_core/src/merkle_path.rs`: its
`Hashable::combine` for `Digest` takes no height, and `root` folds that
single combine over the path. -/

/-- Implementation of `Hashable::combine` for `Digest` in `native/aarm_core/src/merkle_path.rs`:
the SHA-256 of the concatenation of the two child digests; the hash is the
external collaborator `hash2` and no height is taken. -/
def nativeCombine (hash2 : Digest → Digest → Digest) (lhs rhs : Digest) :
    Digest :=
  hash2 lhs rhs

/-- Type `MerklePath<DEPTH>` of `native/aarm_core/src/merkle_path.rs`: pairs of a
sibling digest and the leaf-is-on-right flag, with no position field. -/
structure NativeMerklePath (Digest : Type) where
  auth_path : List (Digest × Bool)
deriving DecidableEq

/-- Method `MerklePath::root` of `native/aarm_core/src/merkle_path.rs`: fold the
height-independent combine over the authentication path. -/
def NativeMerklePath.root (hash2 : Digest → Digest → Digest)
    (p : NativeMerklePath Digest) (leaf : Digest) : Digest :=
  p.auth_path.foldl
    (fun root pb =>
      match pb.2 with
      | false => nativeCombine hash2 root pb.1
      | true => nativeCombine hash2 pb.1 root)
    leaf

end Aarm

namespace Aarm

variable {Node : Type} [Hashable Node]

/-! List access helpers, self-contained. -/

theorem getD_append_left {α : Type} (xs ys : List α) (i : Nat) (d : α)
    (h : i < xs.length) : (xs ++ ys).getD i d = xs.getD i d := by
  induction xs generalizing i with
  | nil => simp at h
  | cons a t ih =>
    cases i with
    | zero => rfl
    | succ j => simpa using ih j (by simpa using h)

theorem getD_append_right {α : Type} (xs ys : List α) (i : Nat) (d : α) :
    (xs ++ ys).getD (xs.length + i) d = ys.getD i d := by
  induction xs with
  | nil => simp
  | cons a t ih => simpa [Nat.succ_add] using ih

theorem get?_eq_some_getD {α : Type} (l : List α) (i : Nat) (d : α)
    (h : i < l.length) : l.get? i = some (l.getD i d) := by
  induction l generalizing i with
  | nil => simp at h
  | cons a t ih =>
    cases i with
    | zero => rfl
    | succ j => simpa using ih j (by simpa using h)

theorem getLast?_eq_getD {α : Type} (l : List α) (d : α) (h : l.length = 1) :
    l.getLast? = some (l.getD 0 d) := by
  cases l with
  | nil => simp at h
  | cons a t => cases t with
    | nil => rfl
    | cons b u => simp at h

/-! Structural facts about the rows machinery. -/

theorem padRow_length (h : Nat) (r : List Node) :
    (padRow h r).length = r.length + r.length % 2 := by
  by_cases hodd : r.length % 2 = 1 <;> simp [padRow, hodd] <;> omega

theorem padRow_even (h : Nat) (r : List Node) : 2 ∣ (padRow h r).length := by
  rw [padRow_length]; omega

theorem padRow_getD (h : Nat) (r : List Node) (i : Nat) (d : Node) (hi : i < r.length) :
    (padRow h r).getD i d = r.getD i d := by
  unfold padRow
  by_cases hodd : r.length % 2 = 1
  · rw [if_pos hodd]; exact getD_append_left r _ i d hi
  · rw [if_neg hodd]

theorem padRow_of_even (h : Nat) (r : List Node) (he : 2 ∣ r.length) :
    padRow h r = r := by
  have : ¬ r.length % 2 = 1 := by omega
  simp [padRow, this]

theorem combineRow_nil (h : Nat) : combineRow h ([] : List Node) = [] := rfl

theorem combineRow_single (h : Nat) (a : Node) : combineRow h [a] = [] := rfl

theorem combineRow_cons₂ (h : Nat) (a b : Node) (rest : List Node) :
    combineRow h (a :: b :: rest) = combine h a b :: combineRow h rest := rfl

theorem combineRow_length (h : Nat) : ∀ r : List Node,
    (combineRow h r).length = r.length / 2
  | [] => by simp [combineRow_nil]
  | [a] => by simp [combineRow_single]
  | a :: b :: rest => by
    rw [combineRow_cons₂]
    simp only [List.length_cons, combineRow_length h rest]
    omega

theorem combineRow_append (h : Nat) : ∀ (xs ys : List Node), 2 ∣ xs.length →
    combineRow h (xs ++ ys) = combineRow h xs ++ combineRow h ys
  | [], ys, _ => rfl
  | [a], ys, hd => by simp at hd
  | a :: b :: t, ys, hd => by
    have ht : 2 ∣ t.length := by simpa [Nat.add_mod] using hd
    simp only [List.cons_append, combineRow_cons₂,
      combineRow_append h t ys ht]

theorem combineRow_getD (h : Nat) : ∀ (r : List Node) (q : Nat),
    q < r.length / 2 →
    (combineRow h r).getD q blank
      = combine h (r.getD (2 * q) blank) (r.getD (2 * q + 1) blank)
  | [], q, hq => by simp only [List.length_nil] at hq; omega
  | [a], q, hq => by simp only [List.length_singleton] at hq; omega
  | a :: b :: rest, 0, _ => by rw [combineRow_cons₂]; simp
  | a :: b :: rest, q + 1, hq => by
    have hq' : q < rest.length / 2 := by
      simp only [List.length_cons] at hq; omega
    rw [combineRow_cons₂]
    show (combineRow h rest).getD q blank = _
    rw [combineRow_getD h rest q hq']
    have e1 : 2 * (q + 1) = 2 * q + 1 + 1 := by omega
    rw [e1]
    simp [List.getD_cons_succ]

theorem combineRow_eq_map (h : Nat) : ∀ r : List Node,
    combineRow h r = (List.range (r.length / 2)).map
      (fun j => combine h (r.getD (2 * j) blank) (r.getD (2 * j + 1) blank))
  | [] => by simp [combineRow_nil]
  | [a] => by simp [combineRow_single]
  | a :: b :: rest => by
    rw [combineRow_cons₂, combineRow_eq_map h rest]
    have hl : (a :: b :: rest).length / 2 = rest.length / 2 + 1 := by
      simp only [List.length_cons]; omega
    rw [hl, List.range_succ_eq_map, List.map_cons, List.map_map]
    congr 1

theorem combineRow_replicate (h : Nat) (x : Node) : ∀ t : Nat,
    combineRow h (List.replicate (2 * t) x) = List.replicate t (combine h x x)
  | 0 => rfl
  | t + 1 => by
    have e : 2 * (t + 1) = (2 * t) + 1 + 1 := by omega
    rw [e, List.replicate_succ, List.replicate_succ, combineRow_cons₂,
      combineRow_replicate h x t, List.replicate_succ]

/-! Characterization of `completeAux` by `flatRows`. -/

theorem flatRows_zero (h : Nat) (r : List Node) : flatRows h 0 r = r := rfl

theorem flatRows_succ (h f : Nat) (r : List Node) :
    flatRows h (f + 1) r
      = padRow h r ++ flatRows (h + 1) f (combineRow h (padRow h r)) := rfl

theorem completeAux_spec : ∀ (fuel : Nat) (pre r : List Node) (h : Nat),
    completeAux (pre ++ r) pre.length r.length h (emptyRoot h) fuel
      = pre ++ flatRows h fuel r
  | 0, pre, r, h => rfl
  | fuel + 1, pre, r, h => by
    show completeAux (pre ++ r) pre.length r.length h (emptyRoot h) (fuel + 1)
      = pre ++ flatRows h (fuel + 1) r
    rw [completeAux]
    have hpad : (if r.length % 2 = 1 then (pre ++ r) ++ [emptyRoot h]
        else pre ++ r) = pre ++ padRow h r := by
      by_cases hodd : r.length % 2 = 1 <;>
        simp [padRow, hodd, List.append_assoc]
    have hw : (if r.length % 2 = 1 then r.length + 1 else r.length)
        = (padRow h r).length := by
      by_cases hodd : r.length % 2 = 1 <;> simp [padRow, hodd]
    simp only [hpad, hw]
    have hrow : ((List.range ((padRow h r).length / 2)).map fun j =>
        combine h ((pre ++ padRow h r).getD (pre.length + 2 * j) blank)
          ((pre ++ padRow h r).getD (pre.length + 2 * j + 1) blank))
        = combineRow h (padRow h r) := by
      rw [combineRow_eq_map]
      apply List.map_congr_left
      intro j _
      rw [getD_append_right pre (padRow h r) (2 * j) blank,
        show pre.length + 2 * j + 1 = pre.length + (2 * j + 1) by omega,
        getD_append_right pre (padRow h r) (2 * j + 1) blank]
    rw [hrow]
    have hlen : pre.length + (padRow h r).length = (pre ++ padRow h r).length := by
      simp
    have hclen : (padRow h r).length / 2 = (combineRow h (padRow h r)).length := by
      rw [combineRow_length]
    rw [hlen, hclen]
    show completeAux ((pre ++ padRow h r) ++ combineRow h (padRow h r))
      (pre ++ padRow h r).length (combineRow h (padRow h r)).length (h + 1)
      (emptyRoot (h + 1)) fuel = pre ++ flatRows h (fuel + 1) r
    rw [completeAux_spec fuel (pre ++ padRow h r) (combineRow h (padRow h r)) (h + 1),
      List.append_assoc, flatRows_succ]

end Aarm

namespace Aarm

variable {Node : Type} [Hashable Node]

/-! Lengths of the rows and the closed form of the iterated ceiling halving. -/

theorem rows_zero (L : List Node) : rows L 0 = L := rfl

theorem rows_succ (L : List Node) (h : Nat) :
    rows L (h + 1) = combineRow h (padRow h (rows L h)) := rfl

theorem widthAt_zero (n : Nat) : widthAt n 0 = n := rfl

theorem widthAt_succ (n h : Nat) : widthAt n (h + 1) = (widthAt n h + 1) / 2 := rfl

theorem rows_length (L : List Node) : ∀ h, (rows L h).length = widthAt L.length h
  | 0 => rfl
  | h + 1 => by
    rw [rows_succ, combineRow_length, padRow_length, rows_length L h, widthAt_succ]
    omega

theorem widthAt_eq (n : Nat) : ∀ h, widthAt n h = (n + 2 ^ h - 1) / 2 ^ h
  | 0 => by rw [widthAt_zero]; simp
  | h + 1 => by
    have hp : 0 < 2 ^ h := by positivity
    have h2 : 2 ^ (h + 1) = 2 ^ h * 2 := pow_succ 2 h
    rw [widthAt_succ, widthAt_eq n h,
      show (n + 2 ^ h - 1) / 2 ^ h + 1 = (n + 2 ^ h - 1 + 2 ^ h) / 2 ^ h from
        (Nat.add_div_right _ hp).symm,
      Nat.div_div_eq_div_mul,
      show n + 2 ^ h - 1 + 2 ^ h = n + 2 ^ (h + 1) - 1 by omega, h2]

theorem widthAt_pos (n h : Nat) (hn : 1 ≤ n) : 1 ≤ widthAt n h := by
  have hp : 0 < 2 ^ h := by positivity
  rw [widthAt_eq, Nat.one_le_div_iff hp]
  omega

theorem widthAt_eq_one (n D : Nat) (h1 : 1 ≤ n) (h2 : n ≤ 2 ^ D) :
    widthAt n D = 1 := by
  have hp : 0 < 2 ^ D := by positivity
  have hlt : widthAt n D < 2 := by
    rw [widthAt_eq, Nat.div_lt_iff_lt_mul hp]
    omega
  have hge := widthAt_pos n D h1
  omega

/-! Facts about the flat vector. -/

theorem flatRows_nil : ∀ (f h : Nat), flatRows h f ([] : List Node) = []
  | 0, h => rfl
  | f + 1, h => by
    rw [flatRows_succ, padRow_of_even h [] (by simp), combineRow_nil,
      flatRows_nil f (h + 1)]
    rfl

theorem flatRows_length_pos : ∀ (f h : Nat) (r : List Node),
    0 < r.length → 0 < (flatRows h f r).length
  | 0, h, r => fun hr => hr
  | f + 1, h, r => fun hr => by
    rw [flatRows_succ, List.length_append]
    have : 0 < (padRow h r).length := by rw [padRow_length]; omega
    omega

theorem flatRows_getLast? (L : List Node) (hL : 0 < L.length) :
    ∀ (f h : Nat), (flatRows h f (rows L h)).getLast? = (rows L (h + f)).getLast?
  | 0, h => rfl
  | f + 1, h => by
    rw [flatRows_succ]
    have hnext : flatRows (h + 1) f (combineRow h (padRow h (rows L h))) ≠ [] := by
      apply List.ne_nil_of_length_pos
      apply flatRows_length_pos
      rw [← rows_succ, rows_length]
      exact widthAt_pos _ _ hL
    rw [List.getLast?_append_of_ne_nil _ hnext, ← rows_succ,
      flatRows_getLast? L hL f (h + 1),
      show h + 1 + f = h + (f + 1) by omega]

theorem new_nodes (D : Nat) (L : List Node) :
    (CommitmentTree.new D L).nodes = flatRows 0 D L := by
  simpa using completeAux_spec D [] L 0

theorem new_size (D : Nat) (L : List Node) :
    (CommitmentTree.new D L).size = L.length := rfl

theorem foldl_combine_emptyRoot : ∀ k : Nat,
    (List.range k).foldl (fun x i => combine i x x) blank = (emptyRoot k : Node)
  | 0 => rfl
  | k + 1 => by
    rw [List.range_succ, List.foldl_append, foldl_combine_emptyRoot k]
    rfl

theorem root_new (D : Nat) (L : List Node) (h1 : 1 ≤ L.length)
    (h2 : L.length ≤ 2 ^ D) :
    (CommitmentTree.new D L).root D = (rows L D).getD 0 blank := by
  have hlen : (rows L D).length = 1 := by
    rw [rows_length]; exact widthAt_eq_one _ _ h1 h2
  rw [CommitmentTree.root, new_nodes,
    show flatRows 0 D L = flatRows 0 D (rows L 0) from rfl,
    flatRows_getLast? L h1 D 0,
    show (0 + D) = D by omega,
    getLast?_eq_getD (rows L D) blank hlen]
  rfl

theorem root_new_nil (D : Nat) :
    (CommitmentTree.new D ([] : List Node)).root D = emptyRoot D := by
  rw [CommitmentTree.root, new_nodes, flatRows_nil]
  simpa using foldl_combine_emptyRoot D

end Aarm

namespace Aarm

variable {Node : Type} [Hashable Node]

/-! Padding with blank leaves: the rows over `L ++ blank^k` are the rows over
`L` extended by copies of the empty root for the height. -/

theorem combineRow_padRow_replicate (h : Nat) (r : List Node) (m2 : Nat)
    (hm : 2 ∣ m2) :
    combineRow h (padRow h r ++ List.replicate m2 (emptyRoot h))
      = combineRow h (padRow h r) ++ List.replicate (m2 / 2) (emptyRoot (h + 1)) := by
  obtain ⟨t, rfl⟩ := hm
  rw [combineRow_append h _ _ (padRow_even h r), combineRow_replicate,
    Nat.mul_div_cancel_left t (by norm_num)]
  rfl

theorem padRow_append_replicate (h : Nat) (r : List Node) (m : Nat) :
    ∃ m2, 2 ∣ m2 ∧ padRow h (r ++ List.replicate m (emptyRoot h))
      = padRow h r ++ List.replicate m2 (emptyRoot h) := by
  by_cases hr : r.length % 2 = 1
  · by_cases hm : m % 2 = 1
    · refine ⟨m - 1, by omega, ?_⟩
      rw [padRow_of_even _ _ (by simp only [List.length_append,
          List.length_replicate]; omega)]
      rw [padRow, if_pos hr, show m = (m - 1) + 1 by omega,
        List.replicate_succ]
      simp [List.append_assoc]
    · refine ⟨m, by omega, ?_⟩
      rw [padRow, if_pos (by simp only [List.length_append,
          List.length_replicate]; omega), padRow, if_pos hr,
        List.append_assoc, ← List.replicate_succ', List.replicate_succ]
      simp [List.append_assoc]
  · by_cases hm : m % 2 = 1
    · refine ⟨m + 1, by omega, ?_⟩
      rw [padRow, if_pos (by simp only [List.length_append,
          List.length_replicate]; omega), padRow_of_even _ _ (by omega),
        List.append_assoc, ← List.replicate_succ']
    · refine ⟨m, by omega, ?_⟩
      rw [padRow_of_even _ _ (by simp only [List.length_append,
          List.length_replicate]; omega), padRow_of_even _ _ (by omega)]

theorem rows_append_blanks (L : List Node) (k : Nat) : ∀ h, ∃ m,
    rows (L ++ List.replicate k (blank : Node)) h
      = rows L h ++ List.replicate m (emptyRoot h)
  | 0 => ⟨k, rfl⟩
  | h + 1 => by
    obtain ⟨m, hm⟩ := rows_append_blanks L k h
    obtain ⟨m2, hm2, hpad⟩ := padRow_append_replicate h (rows L h) m
    refine ⟨m2 / 2, ?_⟩
    rw [rows_succ, rows_succ, hm, hpad,
      combineRow_padRow_replicate h _ m2 hm2]

theorem rows_nil : ∀ h, rows ([] : List Node) h = []
  | 0 => rfl
  | h + 1 => by
    rw [rows_succ, rows_nil h, padRow_of_even _ _ (by simp), combineRow_nil]

theorem root_new_append_blanks (D : Nat) (L : List Node) (k : Nat)
    (hk : L.length + k ≤ 2 ^ D) :
    (CommitmentTree.new D (L ++ List.replicate k (blank : Node))).root D
      = (CommitmentTree.new D L).root D := by
  by_cases hL : L.length = 0
  · have hnil : L = [] := List.eq_nil_of_length_eq_zero hL
    subst hnil
    rw [List.nil_append, root_new_nil]
    by_cases hk0 : k = 0
    · subst hk0
      exact root_new_nil D
    · have h1 : 1 ≤ (List.replicate k (blank : Node)).length := by simp; omega
      have h2 : (List.replicate k (blank : Node)).length ≤ 2 ^ D := by
        simp at hk ⊢; omega
      rw [root_new D _ h1 h2]
      obtain ⟨m, hm⟩ := rows_append_blanks ([] : List Node) k D
      rw [List.nil_append, rows_nil, List.nil_append] at hm
      have hlen : (rows (List.replicate k (blank : Node)) D).length = 1 := by
        rw [rows_length, List.length_replicate]
        exact widthAt_eq_one _ _ (by omega) (by simpa using h2)
      have hm1 : m = 1 := by
        rw [hm, List.length_replicate] at hlen
        exact hlen
      rw [hm, hm1]
      rfl
  · have h1 : 1 ≤ L.length := by omega
    obtain ⟨m, hm⟩ := rows_append_blanks L k D
    have hlenL : (rows L D).length = 1 := by
      rw [rows_length]; exact widthAt_eq_one _ _ h1 (by omega)
    have hlen' : (rows (L ++ List.replicate k (blank : Node)) D).length = 1 := by
      rw [rows_length, List.length_append, List.length_replicate]
      exact widthAt_eq_one _ _ (by omega) (by omega)
    have hm0 : m = 0 := by
      rw [hm, List.length_append, hlenL, List.length_replicate] at hlen'
      omega
    have ha : 1 ≤ (L ++ List.replicate k (blank : Node)).length := by
      simp only [List.length_append, List.length_replicate]; omega
    have hb : (L ++ List.replicate k (blank : Node)).length ≤ 2 ^ D := by
      simp only [List.length_append, List.length_replicate]; omega
    rw [root_new D _ ha hb, root_new D L h1 (by omega), hm, hm0]
    simp

theorem root_new_replicate_blank (D k : Nat) (hk : k ≤ 2 ^ D) :
    (CommitmentTree.new D (List.replicate k (blank : Node))).root D
      = emptyRoot D := by
  have h := root_new_append_blanks D ([] : List Node) k (by simpa using hk)
  rw [List.nil_append, root_new_nil] at h
  exact h

end Aarm

namespace Aarm

variable {Node : Type} [Hashable Node]

/-! Characterization of `CommitmentTree::path` against the conceptual rows. -/

theorem specPath_length (L : List Node) : ∀ (f h pos : Nat),
    (specPath L h pos f).length = f
  | 0, _, _ => rfl
  | f + 1, h, pos => by
    simp only [specPath, List.length_cons, specPath_length L f]

theorem offsetN_succ (n h : Nat) : offsetN n (h + 1) = offsetN n h + padWidth n h :=
  rfl

theorem padRow_rows_length (L : List Node) (h : Nat) :
    (padRow h (rows L h)).length = padWidth L.length h := by
  rw [padRow_length, rows_length]; rfl

theorem rows_succ_length (L : List Node) (h : Nat) :
    (rows L (h + 1)).length = (padRow h (rows L h)).length / 2 := by
  rw [rows_succ, combineRow_length]

theorem flatRows_drop_offset (D : Nat) (L : List Node) : ∀ h, h ≤ D →
    (flatRows 0 D L).drop (offsetN L.length h) = flatRows h (D - h) (rows L h)
  | 0, _ => by simp [offsetN, rows_zero]
  | h + 1, hD => by
    rw [offsetN_succ, ← padRow_rows_length L h, ← List.drop_drop,
      flatRows_drop_offset D L h (by omega),
      show D - h = (D - (h + 1)) + 1 by omega, flatRows_succ,
      List.drop_left, rows_succ]

theorem flat_get?_spec (D : Nat) (L : List Node) (h i : Nat) (hD : h < D)
    (hi : i < (padRow h (rows L h)).length) :
    (flatRows 0 D L).get? (offsetN L.length h + i)
      = some ((padRow h (rows L h)).getD i blank) := by
  rw [← List.get?_drop, flatRows_drop_offset D L h (by omega),
    show D - h = (D - (h + 1)) + 1 by omega, flatRows_succ,
    List.get?_append (by simpa using hi)]
  exact get?_eq_some_getD _ i blank hi

theorem pathAux_spec (D : Nat) (L : List Node) : ∀ (f h pos : Nat), h + f = D →
    pathAux (flatRows 0 D L) pos (offsetN L.length h) (rows L h).length
      (emptyRoot h) h f = some (specPath L h pos f)
  | 0, h, pos, _ => rfl
  | f + 1, h, pos, hD => by
    have hhD : h < D := by omega
    have hw : (if (rows L h).length % 2 = 1 then (rows L h).length + 1
        else (rows L h).length) = (padRow h (rows L h)).length := by
      rw [padRow_length]
      by_cases hodd : (rows L h).length % 2 = 1
      · simp [hodd]
      · simp [hodd]; omega
    have hstart : offsetN L.length h + (padRow h (rows L h)).length
        = offsetN L.length (h + 1) := by
      rw [offsetN_succ, padRow_rows_length]
    have hwidth : (padRow h (rows L h)).length / 2 = (rows L (h + 1)).length :=
      (rows_succ_length L h).symm
    have her : combine h (emptyRoot h) (emptyRoot h) = (emptyRoot (h + 1) : Node) :=
      rfl
    have hrec := pathAux_spec D L f (h + 1) (pos / 2) (by omega)
    simp only [pathAux, hw, hstart, hwidth, her, hrec]
    by_cases hpos : pos % 2 = 0
    · by_cases hg : pos + 1 < (padRow h (rows L h)).length
      · rw [if_pos hpos, if_pos hg,
          show offsetN L.length h + pos + 1 = offsetN L.length h + (pos + 1) by
            omega,
          flat_get?_spec D L h (pos + 1) hhD hg]
        simp only [Option.map_some', specPath]
        rw [if_pos hpos, if_pos hg]
      · rw [if_pos hpos, if_neg hg]
        simp only [specPath]
        rw [if_pos hpos, if_neg hg]
    · by_cases hg : pos - 1 < (padRow h (rows L h)).length
      · rw [if_neg hpos, if_pos hg]
        have hpos1 : 1 ≤ pos := by omega
        rw [show offsetN L.length h + pos - 1 = offsetN L.length h + (pos - 1) by
            omega,
          flat_get?_spec D L h (pos - 1) hhD hg]
        simp only [Option.map_some', specPath]
        rw [if_neg hpos, if_pos hg]
      · rw [if_neg hpos, if_neg hg]
        simp only [specPath]
        rw [if_neg hpos, if_neg hg]

theorem path_new_spec (D : Nat) (L : List Node) (pos : Nat) :
    CommitmentTree.path D (CommitmentTree.new D L) pos
      = some ⟨specPath L 0 pos D, pos⟩ := by
  have h0 : pathAux (flatRows 0 D L) pos 0 L.length blank 0 D
      = some (specPath L 0 pos D) := pathAux_spec D L D 0 pos (by omega)
  rw [CommitmentTree.path, new_nodes, new_size, h0]
  rfl

end Aarm

namespace Aarm

variable {Node : Type} [Hashable Node]

/-! Folding `MerklePath::root` over the extracted path climbs the rows. -/

theorem mroot_spec (L : List Node) : ∀ (f h pos : Nat),
    pos < (rows L h).length →
    MerklePath.rootAux h (specPath L h pos f) ((rows L h).getD pos blank)
      = (rows L (h + f)).getD (pos / 2 ^ f) blank
  | 0, h, pos, _ => by
    simp [specPath, MerklePath.rootAux]
  | f + 1, h, pos, hpos => by
    have hple : (rows L h).length ≤ (padRow h (rows L h)).length := by
      rw [padRow_length]; omega
    have heven : (padRow h (rows L h)).length % 2 = 0 := by
      have := padRow_even h (rows L h); omega
    have hlt : pos < (padRow h (rows L h)).length := by omega
    have hnext : pos / 2 < (rows L (h + 1)).length := by
      rw [rows_succ_length]; omega
    have hq : pos / 2 < (padRow h (rows L h)).length / 2 := by omega
    have hcr := combineRow_getD h (padRow h (rows L h)) (pos / 2) hq
    have hrow1 : (rows L (h + 1)).getD (pos / 2) blank
        = combine h ((padRow h (rows L h)).getD (2 * (pos / 2)) blank)
            ((padRow h (rows L h)).getD (2 * (pos / 2) + 1) blank) := by
      rw [rows_succ]; exact hcr
    have hIH := mroot_spec L f (h + 1) (pos / 2) hnext
    by_cases hpos2 : pos % 2 = 0
    · have hguard : pos + 1 < (padRow h (rows L h)).length := by omega
      simp only [specPath]
      rw [if_pos hpos2, if_pos hguard, MerklePath.rootAux]
      simp only [Bool.false_eq_true, if_false]
      have hv : combine h ((rows L h).getD pos blank)
          ((padRow h (rows L h)).getD (pos + 1) blank)
          = (rows L (h + 1)).getD (pos / 2) blank := by
        rw [hrow1, show 2 * (pos / 2) = pos by omega,
          padRow_getD h (rows L h) pos blank hpos]
      rw [hv, hIH, show h + 1 + f = h + (f + 1) by omega,
        Nat.div_div_eq_div_mul, show (2 : Nat) * 2 ^ f = 2 ^ (f + 1) by
          rw [pow_succ]; omega]
    · have hguard : pos - 1 < (padRow h (rows L h)).length := by omega
      simp only [specPath]
      rw [if_neg hpos2, if_pos hguard, MerklePath.rootAux]
      simp only [if_true]
      have hv : combine h ((padRow h (rows L h)).getD (pos - 1) blank)
          ((rows L h).getD pos blank)
          = (rows L (h + 1)).getD (pos / 2) blank := by
        rw [hrow1, show 2 * (pos / 2) + 1 = pos by omega,
          show 2 * (pos / 2) = pos - 1 by omega,
          padRow_getD h (rows L h) pos blank hpos]
      rw [hv, hIH, show h + 1 + f = h + (f + 1) by omega,
        Nat.div_div_eq_div_mul, show (2 : Nat) * 2 ^ f = 2 ^ (f + 1) by
          rw [pow_succ]; omega]

/-- C1: for every leaf sequence `L` of length at most `2 ^ D` and every index
`i < L.length`, the authentication path extracted from the tree built over `L`
reproduces the tree's root when applied to the `i`-th leaf:
`CommitmentTree::new(L).path(i).root(L[i]) == CommitmentTree::new(L).root()`
(the path is returned inside `Option`; it is always `some` here, and the
composed value equals the root). -/
theorem path_root_eq_tree_root {Node : Type} [Hashable Node] (D : Nat)
    (L : List Node) (i : Nat) (hlen : L.length ≤ 2 ^ D) (hi : i < L.length) :
    (CommitmentTree.path D (CommitmentTree.new D L) i).map
        (fun p => p.root (L.getD i blank))
      = some ((CommitmentTree.new D L).root D) := by
  rw [path_new_spec, Option.map_some']
  congr 1
  show MerklePath.rootAux 0 (specPath L 0 i D) (L.getD i blank) = _
  have hms : MerklePath.rootAux 0 (specPath L 0 i D) (L.getD i blank)
      = (rows L (0 + D)).getD (i / 2 ^ D) blank :=
    mroot_spec L D 0 i (by rw [rows_length, widthAt_zero]; exact hi)
  rw [hms, Nat.zero_add, Nat.div_eq_of_lt (lt_of_lt_of_le hi hlen),
    root_new D L (by omega) hlen]

/-- Witness for C1 at a concrete input. -/
theorem path_root_eq_tree_root_witness :
    (CommitmentTree.path 2 (CommitmentTree.new 2 ([1, 2, 3] : List Nat)) 1).map
        (fun p => p.root (([1, 2, 3] : List Nat).getD 1 blank))
      = some ((CommitmentTree.new 2 ([1, 2, 3] : List Nat)).root 2) :=
  path_root_eq_tree_root 2 [1, 2, 3] 1 (by norm_num) (by norm_num)

/-- C7: the padding value used for an odd-width row at height `h` is
`emptyRoot h`, which equals the root of a tree of depth `h` built over blank
leaves only; consequently appending `k` blank leaves to any leaf sequence
(within capacity) does not change the root. -/
theorem padding_timing_independent {Node : Type} [Hashable Node] (D : Nat)
    (L : List Node) (k : Nat) (hk : L.length + k ≤ 2 ^ D) :
    (CommitmentTree.new D (L ++ List.replicate k (blank : Node))).root D
        = (CommitmentTree.new D L).root D
      ∧ (CommitmentTree.new D (List.replicate k (blank : Node))).root D
        = emptyRoot D :=
  ⟨root_new_append_blanks D L k hk, root_new_replicate_blank D k (by omega)⟩

/-- Witness for C7 at a concrete input. -/
theorem padding_timing_independent_witness :
    (CommitmentTree.new 2 (([5, 6] : List Nat) ++ List.replicate 1 blank)).root 2
        = (CommitmentTree.new 2 ([5, 6] : List Nat)).root 2
      ∧ (CommitmentTree.new 2 (List.replicate 1 (blank : Nat))).root 2
        = emptyRoot 2 :=
  padding_timing_independent 2 [5, 6] 1 (by norm_num)

end Aarm

namespace Aarm

variable {Node : Type} [Hashable Node]

/-! Numeric facts about widths of full and concatenated leaf rows. -/

theorem widthAt_pow (E h : Nat) (hh : h ≤ E) : widthAt (2 ^ E) h = 2 ^ (E - h) := by
  have hp : 0 < 2 ^ h := by positivity
  rw [widthAt_eq, show 2 ^ E = 2 ^ (E - h) * 2 ^ h by
      rw [← pow_add]; congr 1; omega,
    show 2 ^ (E - h) * 2 ^ h + 2 ^ h - 1 = 2 ^ h * 2 ^ (E - h) + (2 ^ h - 1) by
      ring_nf; omega,
    Nat.mul_add_div hp, Nat.div_eq_of_lt (by omega), Nat.add_zero]

theorem widthAt_mul_pow_add (c E b h : Nat) (hh : h ≤ E) :
    widthAt (c * 2 ^ E + b) h = c * 2 ^ (E - h) + widthAt b h := by
  have hp : 0 < 2 ^ h := by positivity
  rw [widthAt_eq, widthAt_eq, show c * 2 ^ E + b + 2 ^ h - 1
      = 2 ^ h * (c * 2 ^ (E - h)) + (b + 2 ^ h - 1) by
      have : c * 2 ^ E = 2 ^ h * (c * 2 ^ (E - h)) := by
        rw [show 2 ^ E = 2 ^ h * 2 ^ (E - h) by rw [← pow_add]; congr 1; omega]
        ring
      omega,
    Nat.mul_add_div hp]

theorem padWidth_div_two (n h : Nat) : padWidth n h / 2 = widthAt n (h + 1) := by
  rw [widthAt_succ]
  unfold padWidth
  omega

theorem padWidth_even_eq (n h : Nat) (he : widthAt n h % 2 = 0) :
    padWidth n h = widthAt n h := by
  unfold padWidth; omega

/-! Slices of a freshly built tree recover its (padded) rows. -/

theorem flatRows_take_row : ∀ (f h : Nat) (r : List Node),
    (flatRows h f r).take r.length = r
  | 0, h, r => List.take_length r
  | f + 1, h, r => by
    rw [flatRows_succ]
    by_cases hodd : r.length % 2 = 1
    · rw [padRow, if_pos hodd, List.append_assoc, List.take_left]
    · rw [padRow, if_neg hodd]
      exact List.take_left r _

theorem flatRows_take_pad (f h : Nat) (r : List Node) (hf : 1 ≤ f) :
    (flatRows h f r).take (padRow h r).length = padRow h r := by
  cases f with
  | zero => omega
  | succ f => rw [flatRows_succ, List.take_left]

theorem new_drop (D : Nat) (L : List Node) (h : Nat) (hh : h ≤ D) :
    (CommitmentTree.new D L).nodes.drop (offsetN L.length h)
      = flatRows h (D - h) (rows L h) := by
  rw [new_nodes]; exact flatRows_drop_offset D L h hh

theorem new_slice_pad (D : Nat) (L : List Node) (h : Nat) (hh : h < D) :
    ((CommitmentTree.new D L).nodes.drop (offsetN L.length h)).take
        (padWidth L.length h)
      = padRow h (rows L h) := by
  rw [new_drop D L h (by omega), ← padRow_rows_length]
  exact flatRows_take_pad (D - h) h _ (by omega)

theorem new_slice_row (D : Nat) (L : List Node) (h : Nat) (hh : h ≤ D) :
    ((CommitmentTree.new D L).nodes.drop (offsetN L.length h)).take
        (rows L h).length
      = rows L h := by
  rw [new_drop D L h hh]
  exact flatRows_take_row (D - h) h _

/-! The flat vector splits into the padded rows below a height plus the rest. -/

theorem rowsBelow_length (L : List Node) : ∀ h,
    (rowsBelow L h).length = offsetN L.length h
  | 0 => rfl
  | h + 1 => by
    show (rowsBelow L h ++ padRow h (rows L h)).length = _
    rw [List.length_append, rowsBelow_length L h, padRow_rows_length, offsetN_succ]

theorem flatRows_split (D : Nat) (L : List Node) : ∀ h, h ≤ D →
    flatRows 0 D L = rowsBelow L h ++ flatRows h (D - h) (rows L h)
  | 0, _ => by simp [rowsBelow, rows_zero]
  | h + 1, hD => by
    rw [flatRows_split D L h (by omega),
      show D - h = (D - (h + 1)) + 1 by omega, flatRows_succ,
      show rowsBelow L (h + 1) = rowsBelow L h ++ padRow h (rows L h) from rfl,
      List.append_assoc, rows_succ]

end Aarm

namespace Aarm

variable {Node : Type} [Hashable Node]

/-! Rows of a concatenation of equal-size power-of-two leaf groups. -/

theorem padRow_append_left (h : Nat) (X Y : List Node) (he : 2 ∣ X.length) :
    padRow h (X ++ Y) = X ++ padRow h Y := by
  unfold padRow
  rw [List.length_append]
  by_cases hodd : Y.length % 2 = 1
  · rw [if_pos (by omega), if_pos hodd, List.append_assoc]
  · rw [if_neg (by omega), if_neg hodd]

theorem flatten_even (Ls : List (List Node)) (he : ∀ X ∈ Ls, 2 ∣ X.length) :
    2 ∣ Ls.flatten.length := by
  induction Ls with
  | nil => simp
  | cons X Ls ih =>
    rw [List.flatten_cons, List.length_append]
    have h1 := he X (by simp)
    have h2 := ih (fun X hX => he X (by simp [hX]))
    omega

theorem flatten_length_const (s : Nat) (Ls : List (List Node))
    (he : ∀ X ∈ Ls, X.length = s) : Ls.flatten.length = Ls.length * s := by
  induction Ls with
  | nil => simp
  | cons X Ls ih =>
    rw [List.flatten_cons, List.length_append, he X (by simp),
      ih (fun X hX => he X (by simp [hX])), List.length_cons]
    ring

theorem combineRow_flatten (h : Nat) (Ls : List (List Node)) (Y : List Node)
    (he : ∀ X ∈ Ls, 2 ∣ X.length) :
    combineRow h (Ls.flatten ++ Y)
      = (Ls.map (combineRow h)).flatten ++ combineRow h Y := by
  induction Ls with
  | nil => simp
  | cons X Ls ih =>
    rw [List.flatten_cons, List.append_assoc,
      combineRow_append h X _ (he X (by simp)),
      ih (fun X hX => he X (by simp [hX])), List.map_cons, List.flatten_cons,
      List.append_assoc]

theorem rows_flatten (E : Nat) (fulls : List (List Node)) (bL : List Node)
    (hfull : ∀ F ∈ fulls, F.length = 2 ^ E) : ∀ h, h ≤ E →
    rows (fulls.flatten ++ bL) h
      = (fulls.map (fun F => rows F h)).flatten ++ rows bL h
  | 0, _ => by simp [rows_zero]
  | h + 1, hE => by
    have hrowlen : ∀ F ∈ fulls, (rows F h).length = 2 ^ (E - h) := by
      intro F hF
      rw [rows_length, hfull F hF, widthAt_pow E h (by omega)]
    have hroweven : ∀ X ∈ fulls.map (fun F => rows F h), 2 ∣ X.length := by
      intro X hX
      obtain ⟨F, hF, rfl⟩ := List.mem_map.mp hX
      rw [hrowlen F hF]
      exact Dvd.intro (2 ^ (E - h - 1)) (by rw [← pow_succ']; congr 1; omega)
    rw [rows_succ, rows_flatten E fulls bL hfull h (by omega),
      padRow_append_left h _ _ (flatten_even _ hroweven),
      combineRow_flatten h _ _ hroweven, List.map_map]
    congr 1
    congr 1
    apply List.map_congr_left
    intro F hF
    simp only [Function.comp]
    rw [rows_succ, padRow_of_even h (rows F h) (hroweven _ (List.mem_map_of_mem _ hF))]

end Aarm

namespace Aarm

variable {Node : Type} [Hashable Node]

/-- Invariant of the `merge` loop: at the start of the iteration for height
`h` (with `h + k = E`, the full subtrees holding `2 ^ E` leaves each), the
output vector holds exactly the padded rows of the concatenated leaf list
below `h`, and all the offsets and widths agree with the row structure of the
corresponding trees.  At the top of the full trees the loop stops, having
emitted every row below `E` plus the unpadded row `E`. -/
theorem mergeAux_spec (D E : Nat) (fulls : List (List Node)) (bL : List Node)
    (hE : E ≤ D) (hfull : ∀ F ∈ fulls, F.length = 2 ^ E) :
    ∀ (k h fuel : Nat), h + k = E → k < fuel →
    mergeAux (fulls.map (CommitmentTree.new D)) (CommitmentTree.new D bL)
        (rowsBelow (fulls.flatten ++ bL) h)
        (offsetN (2 ^ E) h) (2 ^ k)
        (offsetN bL.length h) (widthAt bL.length h)
        (offsetN (fulls.flatten ++ bL).length h)
        (widthAt (fulls.flatten ++ bL).length h) h fuel
      = (rowsBelow (fulls.flatten ++ bL) E ++ rows (fulls.flatten ++ bL) E,
         offsetN (fulls.flatten ++ bL).length E,
         widthAt (fulls.flatten ++ bL).length E, E)
  | k, h, 0, _, hf => absurd hf (by omega)
  | 0, h, fl + 1, hk, _ => by
    have hhE : h = E := by omega
    subst hhE
    rw [pow_zero]
    simp only [mergeAux]
    have hcond : ¬(widthAt bL.length h % 2 = 1 ∧ 1 < 1) := by omega
    rw [if_neg hcond, if_neg hcond]
    simp only [if_true]
    have hslice : ((fulls.map (CommitmentTree.new D)).map fun st =>
        (st.nodes.drop (offsetN (2 ^ h) h)).take 1).flatten
        = (fulls.map (fun F => rows F h)).flatten := by
      rw [List.map_map]
      congr 1
      apply List.map_congr_left
      intro F hF
      simp only [Function.comp]
      have h1 : (rows F h).length = 1 := by
        rw [rows_length, hfull F hF, widthAt_pow h h (le_refl h)]
        simp
      rw [show offsetN (2 ^ h) h = offsetN F.length h by rw [hfull F hF],
        show (1 : Nat) = (rows F h).length from h1.symm,
        new_slice_row D F h hE]
    have hlast : ((CommitmentTree.new D bL).nodes.drop
          (offsetN bL.length h)).take (widthAt bL.length h) = rows bL h := by
      rw [show widthAt bL.length h = (rows bL h).length from
          (rows_length bL h).symm,
        new_slice_row D bL h hE]
    rw [hslice, hlast, rows_flatten h fulls bL hfull h (le_refl h),
      List.append_assoc]
  | k + 1, h, fl + 1, hk, hf => by
    have hhE : h < E := by omega
    have h2k : (2 : Nat) ^ (k + 1) = 2 * 2 ^ k := by rw [pow_succ']
    have h2kpos : 0 < 2 ^ k := by positivity
    have hEh : E - h = k + 1 := by omega
    have hN : (fulls.flatten ++ bL).length
        = fulls.length * 2 ^ E + bL.length := by
      rw [List.length_append, flatten_length_const (2 ^ E) fulls hfull]
    have hNw : widthAt (fulls.flatten ++ bL).length h
        = fulls.length * 2 ^ (k + 1) + widthAt bL.length h := by
      rw [hN, widthAt_mul_pow_add fulls.length E bL.length h (by omega), hEh]
    have hdvd : 2 ∣ fulls.length * 2 ^ (k + 1) :=
      ⟨fulls.length * 2 ^ k, by rw [h2k]; ring⟩
    have hparN : widthAt (fulls.flatten ++ bL).length h % 2
        = widthAt bL.length h % 2 := by
      rw [hNw]; omega
    simp only [mergeAux]
    have hflw2 : (if widthAt bL.length h % 2 = 1 ∧ 1 < 2 ^ (k + 1) then
        widthAt bL.length h + 1 else widthAt bL.length h)
        = padWidth bL.length h := by
      unfold padWidth
      by_cases hb : widthAt bL.length h % 2 = 1
      · rw [if_pos ⟨hb, by omega⟩]; omega
      · rw [if_neg (by tauto)]; omega
    have hpw2 : (if widthAt bL.length h % 2 = 1 ∧ 1 < 2 ^ (k + 1) then
        widthAt (fulls.flatten ++ bL).length h + 1
        else widthAt (fulls.flatten ++ bL).length h)
        = padWidth (fulls.flatten ++ bL).length h := by
      unfold padWidth
      by_cases hb : widthAt bL.length h % 2 = 1
      · rw [if_pos ⟨hb, by omega⟩]; omega
      · rw [if_neg (by tauto)]; omega
    rw [hflw2, hpw2, if_neg (show ¬(2 : Nat) ^ (k + 1) = 1 by omega)]
    have hroweven : ∀ X ∈ fulls.map (fun F => rows F h), 2 ∣ X.length := by
      intro X hX
      obtain ⟨F, hF, rfl⟩ := List.mem_map.mp hX
      rw [rows_length, hfull F hF, widthAt_pow E h (by omega), hEh, h2k]
      omega
    have hslice : ((fulls.map (CommitmentTree.new D)).map fun st =>
        (st.nodes.drop (offsetN (2 ^ E) h)).take (2 ^ (k + 1))).flatten
        = (fulls.map (fun F => rows F h)).flatten := by
      rw [List.map_map]
      congr 1
      apply List.map_congr_left
      intro F hF
      simp only [Function.comp]
      have h1 : (rows F h).length = 2 ^ (k + 1) := by
        rw [rows_length, hfull F hF, widthAt_pow E h (by omega), hEh]
      rw [show offsetN (2 ^ E) h = offsetN F.length h by rw [hfull F hF],
        show (2 : Nat) ^ (k + 1) = (rows F h).length from h1.symm,
        new_slice_row D F h (by omega)]
    have hlast : ((CommitmentTree.new D bL).nodes.drop
          (offsetN bL.length h)).take (padWidth bL.length h)
        = padRow h (rows bL h) :=
      new_slice_pad D bL h (by omega)
    have htree : rowsBelow (fulls.flatten ++ bL) h
          ++ (fulls.map (fun F => rows F h)).flatten
          ++ padRow h (rows bL h)
        = rowsBelow (fulls.flatten ++ bL) (h + 1) := by
      show _ = rowsBelow (fulls.flatten ++ bL) h
        ++ padRow h (rows (fulls.flatten ++ bL) h)
      rw [rows_flatten E fulls bL hfull h (by omega),
        padRow_append_left h _ _ (flatten_even _ hroweven), List.append_assoc]
    have hffs : offsetN (2 ^ E) h + 2 ^ (k + 1) = offsetN (2 ^ E) (h + 1) := by
      rw [offsetN_succ,
        padWidth_even_eq _ _ (by rw [widthAt_pow E h (by omega), hEh, h2k]; omega),
        widthAt_pow E h (by omega), hEh]
    have hffw : (2 : Nat) ^ (k + 1) / 2 = 2 ^ k := by omega
    have hfls : offsetN bL.length h + padWidth bL.length h
        = offsetN bL.length (h + 1) := (offsetN_succ _ _).symm
    have hflwd : padWidth bL.length h / 2 = widthAt bL.length (h + 1) :=
      padWidth_div_two _ _
    have hps : offsetN (fulls.flatten ++ bL).length h
          + padWidth (fulls.flatten ++ bL).length h
        = offsetN (fulls.flatten ++ bL).length (h + 1) := (offsetN_succ _ _).symm
    have hpwd : padWidth (fulls.flatten ++ bL).length h / 2
        = widthAt (fulls.flatten ++ bL).length (h + 1) := padWidth_div_two _ _
    rw [hslice, hlast, htree, hffs, hffw, hfls, hflwd, hps, hpwd]
    exact mergeAux_spec D E fulls bL hE hfull k (h + 1) fl (by omega) (by omega)

end Aarm

namespace Aarm

variable {Node : Type} [Hashable Node]

theorem flatten_dropLast_getLastD {α : Type} : ∀ (l : List (List α)) (d : List α),
    l ≠ [] → l.dropLast.flatten ++ l.getLastD d = l.flatten
  | [x], d, _ => by simp
  | x :: y :: t, d, _ => by
    rw [show (x :: y :: t).dropLast = x :: (y :: t).dropLast from rfl,
      List.flatten_cons,
      show (x :: y :: t).getLastD d = (y :: t).getLastD x from rfl,
      List.append_assoc, flatten_dropLast_getLastD (y :: t) x (by simp)]
    simp

theorem getLastD_map {α β : Type} (f : α → β) (l : List α) (d : α) :
    (l.map f).getLastD (f d) = f (l.getLastD d) := by
  rw [List.getLastD_eq_getLast?, List.getLastD_eq_getLast?, List.getLast?_map]
  cases l.getLast? <;> rfl

theorem complete_rowsBelow (D E : Nat) (c : List Node) (hE : E ≤ D) :
    CommitmentTree.complete D (rowsBelow c E ++ rows c E)
        (offsetN c.length E) (widthAt c.length E) E c.length
      = CommitmentTree.new D c := by
  refine CommitmentTree.ext ?_ ?_
  · show completeAux (rowsBelow c E ++ rows c E) (offsetN c.length E)
        (widthAt c.length E) E
        ((List.range E).foldl (fun x i => combine i x x) blank) (D - E)
      = (CommitmentTree.new D c).nodes
    rw [foldl_combine_emptyRoot, ← rowsBelow_length, ← rows_length,
      completeAux_spec (D - E) (rowsBelow c E) (rows c E) E, new_nodes,
      flatRows_split D c E hE]
  · rfl

/-- Merging equal-size power-of-two subtrees (with an arbitrary trailing
subtree) gives exactly the tree freshly built over the concatenated leaves. -/
theorem merge_eq_new (D E : Nat) (Fs : List (List Node)) (hE : E ≤ D)
    (hfull : ∀ F ∈ Fs.dropLast, F.length = 2 ^ E) :
    CommitmentTree.merge D (Fs.map (CommitmentTree.new D))
      = CommitmentTree.new D Fs.flatten := by
  match Fs, hfull with
  | [], _ =>
    refine CommitmentTree.ext ?_ ?_
    · show ([] : List Node) = (CommitmentTree.new D ([] : List Node)).nodes
      rw [new_nodes, flatRows_nil]
    · rfl
  | [F], _ =>
    show CommitmentTree.new D F = _
    congr 1
    simp
  | F0 :: F1 :: rest, hfull =>
    have hF0 : F0.length = 2 ^ E := hfull F0 (by
      rw [List.dropLast_cons₂]; exact List.mem_cons_self _ _)
    have hfull' : ∀ F ∈ (F0 :: F1 :: rest).dropLast, F.length = 2 ^ E := hfull
    rw [List.map_cons, List.map_cons]
    simp only [CommitmentTree.merge]
    rw [show (CommitmentTree.new D F0 :: CommitmentTree.new D F1 ::
          List.map (CommitmentTree.new D) rest).dropLast
        = ((F0 :: F1 :: rest).dropLast).map (CommitmentTree.new D) by
        rw [← List.map_cons, ← List.map_cons, List.map_dropLast],
      show (CommitmentTree.new D F0 :: CommitmentTree.new D F1 ::
          List.map (CommitmentTree.new D) rest).getLastD (CommitmentTree.new D F0)
        = CommitmentTree.new D ((F0 :: F1 :: rest).getLastD F0) by
        rw [← List.map_cons, ← List.map_cons, getLastD_map],
      show (CommitmentTree.new D F0 :: CommitmentTree.new D F1 ::
          List.map (CommitmentTree.new D) rest).length
        = (F0 :: F1 :: rest).length by simp]
    simp only [new_size]
    rw [hF0]
    rw [show ((F0 :: F1 :: rest).length - 1) * 2 ^ E
          + ((F0 :: F1 :: rest).getLastD F0).length
        = ((F0 :: F1 :: rest).dropLast.flatten
            ++ (F0 :: F1 :: rest).getLastD F0).length by
        rw [List.length_append, flatten_length_const (2 ^ E) _ hfull',
          List.length_dropLast]]
    have hr := mergeAux_spec D E ((F0 :: F1 :: rest).dropLast)
      ((F0 :: F1 :: rest).getLastD F0) hE hfull' E 0 (2 ^ E) (by omega)
      (Nat.lt_two_pow E)
    simp only [show ∀ c : List Node, rowsBelow c 0 = [] from fun _ => rfl,
      show ∀ n : Nat, offsetN n 0 = 0 from fun _ => rfl,
      show ∀ n : Nat, widthAt n 0 = n from fun _ => rfl] at hr
    rw [hr]
    show CommitmentTree.complete D
        (rowsBelow ((F0 :: F1 :: rest).dropLast.flatten
            ++ (F0 :: F1 :: rest).getLastD F0) E
          ++ rows ((F0 :: F1 :: rest).dropLast.flatten
            ++ (F0 :: F1 :: rest).getLastD F0) E)
        (offsetN ((F0 :: F1 :: rest).dropLast.flatten
            ++ (F0 :: F1 :: rest).getLastD F0).length E)
        (widthAt ((F0 :: F1 :: rest).dropLast.flatten
            ++ (F0 :: F1 :: rest).getLastD F0).length E) E
        ((F0 :: F1 :: rest).dropLast.flatten
            ++ (F0 :: F1 :: rest).getLastD F0).length
      = CommitmentTree.new D (F0 :: F1 :: rest).flatten
    rw [complete_rowsBelow D E _ hE,
      flatten_dropLast_getLastD (F0 :: F1 :: rest) F0 (by simp)]

end Aarm

namespace Aarm

/-- C2: for every sequence of subtrees in which all but the last hold the
same power-of-two number `2 ^ E` of leaves and the last holds no more, merging
them yields the same root as building a fresh tree over the concatenation of
all their leaves: `merge(subtrees).root() == new(concat leaves).root()`.
(Subtrees are written as the trees built over their leaf lists, and the merged
tree in fact equals the fresh tree node-for-node.) -/
theorem merge_root_eq_new_root {Node : Type} [Hashable Node] (D E : Nat)
    (Fs : List (List Node)) (hE : E ≤ D)
    (hfull : ∀ F ∈ Fs.dropLast, F.length = 2 ^ E)
    (hlast : (Fs.getLastD []).length ≤ 2 ^ E) :
    (CommitmentTree.merge D (Fs.map (CommitmentTree.new D))).root D
      = (CommitmentTree.new D Fs.flatten).root D := by
  rw [merge_eq_new D E Fs hE hfull]

/-- Witness for C2 at a concrete input: two full trees of two leaves each and
a singleton trailing tree, at depth 3. -/
theorem merge_root_eq_new_root_witness :
    (CommitmentTree.merge 3 (([[1, 2], [3, 4], [5]] : List (List Nat)).map
        (CommitmentTree.new 3))).root 3
      = (CommitmentTree.new 3 ([[1, 2], [3, 4], [5]] : List (List Nat)).flatten).root 3 :=
  merge_root_eq_new_root 3 1 [[1, 2], [3, 4], [5]] (by norm_num) (by decide)
    (by decide)

/-- C10: `CommitmentTree::path` is total on every tree built by `new` or (under
the documented size preconditions) by `merge`: for every position, including
positions at or beyond the leaf count, no index into the backing vector is out
of bounds (the embedding returns `none` exactly on an out-of-bounds Rust
index, and here it always returns `some`), and the returned authentication
path has exactly `COMMITMENT_TREE_DEPTH` entries. -/
theorem path_total_and_full_depth {Node : Type} [Hashable Node] (D : Nat) :
    (∀ (L : List Node) (pos : Nat), ∃ p : MerklePath Node,
        CommitmentTree.path D (CommitmentTree.new D L) pos = some p
          ∧ p.auth_path.length = D)
      ∧ ∀ (E : Nat) (Fs : List (List Node)) (pos : Nat), E ≤ D →
          (∀ F ∈ Fs.dropLast, F.length = 2 ^ E) →
          ∃ p : MerklePath Node,
            CommitmentTree.path D (CommitmentTree.merge D
              (Fs.map (CommitmentTree.new D))) pos = some p
              ∧ p.auth_path.length = D := by
  constructor
  · intro L pos
    exact ⟨⟨specPath L 0 pos D, pos⟩, path_new_spec D L pos,
      specPath_length L D 0 pos⟩
  · intro E Fs pos hE hfull
    rw [merge_eq_new D E Fs hE hfull]
    exact ⟨⟨specPath Fs.flatten 0 pos D, pos⟩, path_new_spec D _ pos,
      specPath_length _ D 0 pos⟩

/-- Witness for C10 at concrete inputs, with a position beyond the leaf
count for the `new` part. -/
theorem path_total_and_full_depth_witness :
    (∃ p : MerklePath Nat,
        CommitmentTree.path 2 (CommitmentTree.new 2 ([7] : List Nat)) 5 = some p
          ∧ p.auth_path.length = 2)
      ∧ ∃ p : MerklePath Nat,
          CommitmentTree.path 2 (CommitmentTree.merge 2
            (([[1, 2], [3]] : List (List Nat)).map (CommitmentTree.new 2))) 0
            = some p
            ∧ p.auth_path.length = 2 :=
  ⟨(path_total_and_full_depth 2).1 [7] 5,
    (path_total_and_full_depth 2).2 1 [[1, 2], [3]] 0 (by norm_num) (by decide)⟩

end Aarm

namespace Aarm

variable {Digest : Type} [DecidableEq Digest]

/-! Ledger lemmas: the verify pass is read-only, the commit pass only grows
the nullifier set and the commitment list. -/

theorem apply_error_state [Hashable Digest] (D : Nat)
    (consumeId createId : Digest) (rm : ResourceMachine Digest)
    (tx : Transaction Digest) (e : ResourceMachineError Digest)
    (h : (ResourceMachine.apply D consumeId createId rm tx).1 = some e) :
    (ResourceMachine.apply D consumeId createId rm tx).2 = rm := by
  unfold ResourceMachine.apply at *
  cases hf : tx.proofs.findSome? (checkProof consumeId createId rm) with
  | some e' => simp [hf]
  | none => rw [hf] at h; simp at h

theorem commitProof_nullifier_mono (consumeId createId : Digest)
    (rm : ResourceMachine Digest) (p : ProofRecord Digest) (x : Digest)
    (hx : x ∈ rm.nullifiers) :
    x ∈ (commitProof consumeId createId rm p).nullifiers := by
  unfold commitProof
  split_ifs with h1 h2
  · exact Finset.mem_insert_of_mem hx
  · exact hx
  · exact hx

theorem commitProof_commitment_mono (consumeId createId : Digest)
    (rm : ResourceMachine Digest) (p : ProofRecord Digest) (x : Digest)
    (hx : x ∈ rm.commitments) :
    x ∈ (commitProof consumeId createId rm p).commitments := by
  unfold commitProof
  split_ifs with h1 h2
  · exact hx
  · exact List.mem_append_left _ hx
  · exact hx

theorem foldl_commit_nullifier_mono (consumeId createId : Digest) (x : Digest) :
    ∀ (l : List (ProofRecord Digest)) (rm : ResourceMachine Digest),
    x ∈ rm.nullifiers →
    x ∈ (l.foldl (commitProof consumeId createId) rm).nullifiers
  | [], rm, hx => hx
  | p :: l, rm, hx =>
    foldl_commit_nullifier_mono consumeId createId x l _
      (commitProof_nullifier_mono consumeId createId rm p x hx)

theorem foldl_commit_commitment_mono (consumeId createId : Digest) (x : Digest) :
    ∀ (l : List (ProofRecord Digest)) (rm : ResourceMachine Digest),
    x ∈ rm.commitments →
    x ∈ (l.foldl (commitProof consumeId createId) rm).commitments
  | [], rm, hx => hx
  | p :: l, rm, hx =>
    foldl_commit_commitment_mono consumeId createId x l _
      (commitProof_commitment_mono consumeId createId rm p x hx)

theorem foldl_commit_nullifier_mem (consumeId createId : Digest) :
    ∀ (l : List (ProofRecord Digest)) (rm : ResourceMachine Digest)
      (p : ProofRecord Digest), p ∈ l → p.imageId = consumeId →
    p.outNullifier ∈ (l.foldl (commitProof consumeId createId) rm).nullifiers
  | [], rm, p, hp, _ => absurd hp (by simp)
  | q :: l, rm, p, hp, hc => by
    rcases List.mem_cons.mp hp with rfl | hp'
    · refine foldl_commit_nullifier_mono consumeId createId _ l _ ?_
      unfold commitProof
      rw [if_pos hc]
      exact Finset.mem_insert_self _ _
    · exact foldl_commit_nullifier_mem consumeId createId l _ p hp' hc

theorem foldl_commit_commitment_mem (consumeId createId : Digest) :
    ∀ (l : List (ProofRecord Digest)) (rm : ResourceMachine Digest)
      (p : ProofRecord Digest), p ∈ l → p.imageId = createId →
      p.imageId ≠ consumeId →
    p.outCommitment ∈ (l.foldl (commitProof consumeId createId) rm).commitments
  | [], rm, p, hp, _, _ => absurd hp (by simp)
  | q :: l, rm, p, hp, hc, hnc => by
    rcases List.mem_cons.mp hp with rfl | hp'
    · refine foldl_commit_commitment_mono consumeId createId _ l _ ?_
      unfold commitProof
      rw [if_neg hnc, if_pos hc]
      exact List.mem_append_right _ (by simp)
    · exact foldl_commit_commitment_mem consumeId createId l _ p hp' hc hnc

theorem apply_nullifier_mono [Hashable Digest] (D : Nat)
    (consumeId createId : Digest) (rm : ResourceMachine Digest)
    (tx : Transaction Digest) (x : Digest) (hx : x ∈ rm.nullifiers) :
    x ∈ (ResourceMachine.apply D consumeId createId rm tx).2.nullifiers := by
  unfold ResourceMachine.apply
  cases hf : tx.proofs.findSome? (checkProof consumeId createId rm) with
  | some e => exact hx
  | none =>
    exact foldl_commit_nullifier_mono consumeId createId x tx.proofs rm hx

theorem apply_commitment_mono [Hashable Digest] (D : Nat)
    (consumeId createId : Digest) (rm : ResourceMachine Digest)
    (tx : Transaction Digest) (x : Digest) (hx : x ∈ rm.commitments) :
    x ∈ (ResourceMachine.apply D consumeId createId rm tx).2.commitments := by
  unfold ResourceMachine.apply
  cases hf : tx.proofs.findSome? (checkProof consumeId createId rm) with
  | some e => exact hx
  | none =>
    exact foldl_commit_commitment_mono consumeId createId x tx.proofs rm hx

theorem applyChain_nullifier_mono [Hashable Digest] (D : Nat)
    (consumeId createId : Digest) (x : Digest) :
    ∀ (txs : List (Transaction Digest)) (rm : ResourceMachine Digest),
    x ∈ rm.nullifiers →
    x ∈ (applyChain D consumeId createId rm txs).nullifiers
  | [], rm, hx => hx
  | tx :: txs, rm, hx =>
    applyChain_nullifier_mono D consumeId createId x txs _
      (apply_nullifier_mono D consumeId createId rm tx x hx)

theorem applyChain_commitment_mono [Hashable Digest] (D : Nat)
    (consumeId createId : Digest) (x : Digest) :
    ∀ (txs : List (Transaction Digest)) (rm : ResourceMachine Digest),
    x ∈ rm.commitments →
    x ∈ (applyChain D consumeId createId rm txs).commitments
  | [], rm, hx => hx
  | tx :: txs, rm, hx =>
    applyChain_commitment_mono D consumeId createId x txs _
      (apply_commitment_mono D consumeId createId rm tx x hx)

theorem apply_ok_nullifier_mem [Hashable Digest] (D : Nat)
    (consumeId createId : Digest) (rm : ResourceMachine Digest)
    (tx : Transaction Digest) (p : ProofRecord Digest)
    (hok : (ResourceMachine.apply D consumeId createId rm tx).1 = none)
    (hp : p ∈ tx.proofs) (hc : p.imageId = consumeId) :
    p.outNullifier
      ∈ (ResourceMachine.apply D consumeId createId rm tx).2.nullifiers := by
  unfold ResourceMachine.apply at *
  cases hf : tx.proofs.findSome? (checkProof consumeId createId rm) with
  | some e => rw [hf] at hok; simp at hok
  | none => exact foldl_commit_nullifier_mem consumeId createId tx.proofs rm p hp hc

theorem apply_ok_commitment_mem [Hashable Digest] (D : Nat)
    (consumeId createId : Digest) (rm : ResourceMachine Digest)
    (tx : Transaction Digest) (p : ProofRecord Digest)
    (hok : (ResourceMachine.apply D consumeId createId rm tx).1 = none)
    (hp : p ∈ tx.proofs) (hc : p.imageId = createId)
    (hnc : p.imageId ≠ consumeId) :
    p.outCommitment
      ∈ (ResourceMachine.apply D consumeId createId rm tx).2.commitments := by
  unfold ResourceMachine.apply at *
  cases hf : tx.proofs.findSome? (checkProof consumeId createId rm) with
  | some e => rw [hf] at hok; simp at hok
  | none =>
    exact foldl_commit_commitment_mem consumeId createId tx.proofs rm p hp hc hnc

theorem checkProof_revealed (consumeId createId : Digest)
    (rm : ResourceMachine Digest) (p : ProofRecord Digest)
    (hv : p.verifies = true) (hc : p.imageId = consumeId)
    (hr : p.outRoot ∈ rm.roots) (hn : p.outNullifier ∈ rm.nullifiers) :
    checkProof consumeId createId rm p
      = some (.revealedNullifier p.outNullifier) := by
  unfold checkProof
  rw [if_neg (by rw [hv]; simp), if_pos hc, if_neg (by simp [hr]), if_pos hn]

theorem checkProof_duplicate (consumeId createId : Digest)
    (rm : ResourceMachine Digest) (p : ProofRecord Digest)
    (hv : p.verifies = true) (hc : p.imageId = createId)
    (hnc : p.imageId ≠ consumeId) (hm : p.outCommitment ∈ rm.commitments) :
    checkProof consumeId createId rm p
      = some (.duplicateCommitment p.outCommitment) := by
  unfold checkProof
  rw [if_neg (by rw [hv]; simp), if_neg hnc, if_pos hc, if_pos hm]

theorem findSome?_of_mem {α β : Type} (f : α → Option β) :
    ∀ (l : List α) (p : α) (e : β), p ∈ l → f p = some e →
    ∃ e', l.findSome? f = some e'
  | [], p, e, hp, _ => absurd hp (by simp)
  | q :: l, p, e, hp, he => by
    rw [List.findSome?_cons]
    cases hq : f q with
    | some b => exact ⟨b, rfl⟩
    | none =>
      rcases List.mem_cons.mp hp with rfl | hp'
      · rw [hq] at he; exact absurd he (by simp)
      · exact findSome?_of_mem f l p e hp' he

theorem findSome?_prefix_none {α β : Type} (f : α → Option β) (e : β) :
    ∀ (pre : List α) (p : α) (post : List α),
    (∀ q ∈ pre, f q = none) → f p = some e →
    (pre ++ p :: post).findSome? f = some e
  | [], p, post, _, he => by rw [List.nil_append, List.findSome?_cons, he]
  | q :: pre, p, post, hpre, he => by
    rw [List.cons_append, List.findSome?_cons, hpre q (by simp)]
    exact findSome?_prefix_none f e pre p post
      (fun r hr => hpre r (by simp [hr])) he

end Aarm

namespace Aarm

/-- C3: `ResourceMachine::apply` is atomic: whenever it returns an error,
the root set, the nullifier set, the commitment list and the commitment tree
after the call all equal their values before the call — no partial
application is observable (the embedding threads the post-state even through
the error return, exactly as Rust's `&mut self` would expose it). -/
theorem apply_atomic {Digest : Type} [DecidableEq Digest] [Hashable Digest]
    (D : Nat) (consumeId createId : Digest) (rm : ResourceMachine Digest)
    (tx : Transaction Digest) (e : ResourceMachineError Digest)
    (h : (ResourceMachine.apply D consumeId createId rm tx).1 = some e) :
    (ResourceMachine.apply D consumeId createId rm tx).2.roots = rm.roots
      ∧ (ResourceMachine.apply D consumeId createId rm tx).2.nullifiers
        = rm.nullifiers
      ∧ (ResourceMachine.apply D consumeId createId rm tx).2.commitments
        = rm.commitments
      ∧ (ResourceMachine.apply D consumeId createId rm tx).2.tree = rm.tree := by
  rw [apply_error_state D consumeId createId rm tx e h]
  exact ⟨rfl, rfl, rfl, rfl⟩

/-- Witness for C3: a transaction whose only proof fails verification is
rejected with `InvalidProof` and leaves the concrete ledger unchanged. -/
theorem apply_atomic_witness :
    (ResourceMachine.apply 1 10 20
        (⟨{0}, ∅, [], CommitmentTree.new 1 []⟩ : ResourceMachine Nat)
        ⟨[⟨10, false, 0, 5, 0⟩], 0⟩).2.roots
        = ({0} : Finset Nat)
      ∧ (ResourceMachine.apply 1 10 20
          (⟨{0}, ∅, [], CommitmentTree.new 1 []⟩ : ResourceMachine Nat)
          ⟨[⟨10, false, 0, 5, 0⟩], 0⟩).2.nullifiers = (∅ : Finset Nat)
      ∧ (ResourceMachine.apply 1 10 20
          (⟨{0}, ∅, [], CommitmentTree.new 1 []⟩ : ResourceMachine Nat)
          ⟨[⟨10, false, 0, 5, 0⟩], 0⟩).2.commitments = ([] : List Nat)
      ∧ (ResourceMachine.apply 1 10 20
          (⟨{0}, ∅, [], CommitmentTree.new 1 []⟩ : ResourceMachine Nat)
          ⟨[⟨10, false, 0, 5, 0⟩], 0⟩).2.tree = CommitmentTree.new 1 [] :=
  apply_atomic 1 10 20 ⟨{0}, ∅, [], CommitmentTree.new 1 []⟩
    ⟨[⟨10, false, 0, 5, 0⟩], 0⟩ .invalidProof (by decide)

/-- C4: no double-spend across transactions.  If applying `tx1` (which
reveals nullifier `N` through a consumption proof) succeeds, then after any
further sequence of transactions: `N` is still in the nullifier set; applying
any transaction `tx2` containing a verifying consumption proof for `N` whose
root is known fails; when that proof is the first failing check the error is
exactly `RevealedNullifier N`; and `N` is still in the nullifier set after
the rejected call. -/
theorem no_double_spend {Digest : Type} [DecidableEq Digest] [Hashable Digest]
    (D : Nat) (consumeId createId : Digest)
    (rm0 rm1 : ResourceMachine Digest) (tx1 tx2 : Transaction Digest)
    (txs : List (Transaction Digest)) (p1 p2 : ProofRecord Digest) (N : Digest)
    (h1 : ResourceMachine.apply D consumeId createId rm0 tx1 = (none, rm1))
    (hp1 : p1 ∈ tx1.proofs) (hp1c : p1.imageId = consumeId)
    (hp1n : p1.outNullifier = N)
    (hp2 : p2 ∈ tx2.proofs) (hp2c : p2.imageId = consumeId)
    (hp2v : p2.verifies = true)
    (hp2r : p2.outRoot ∈ (applyChain D consumeId createId rm1 txs).roots)
    (hp2n : p2.outNullifier = N) :
    N ∈ (applyChain D consumeId createId rm1 txs).nullifiers
      ∧ (∃ e, (ResourceMachine.apply D consumeId createId
          (applyChain D consumeId createId rm1 txs) tx2).1 = some e)
      ∧ N ∈ (ResourceMachine.apply D consumeId createId
          (applyChain D consumeId createId rm1 txs) tx2).2.nullifiers
      ∧ ∀ pre post, tx2.proofs = pre ++ p2 :: post →
          (∀ q ∈ pre, checkProof consumeId createId
            (applyChain D consumeId createId rm1 txs) q = none) →
          (ResourceMachine.apply D consumeId createId
            (applyChain D consumeId createId rm1 txs) tx2).1
            = some (.revealedNullifier N) := by
  have hok : (ResourceMachine.apply D consumeId createId rm0 tx1).1 = none := by
    rw [h1]
  have hrm1 : (ResourceMachine.apply D consumeId createId rm0 tx1).2 = rm1 := by
    rw [h1]
  have hN1 : N ∈ rm1.nullifiers := by
    rw [← hrm1, ← hp1n]
    exact apply_ok_nullifier_mem D consumeId createId rm0 tx1 p1 hok hp1 hp1c
  have hN2 : N ∈ (applyChain D consumeId createId rm1 txs).nullifiers :=
    applyChain_nullifier_mono D consumeId createId N txs rm1 hN1
  have hchk : checkProof consumeId createId
      (applyChain D consumeId createId rm1 txs) p2
      = some (.revealedNullifier N) := by
    rw [← hp2n]
    exact checkProof_revealed consumeId createId _ p2 hp2v hp2c hp2r
      (by rw [hp2n]; exact hN2)
  refine ⟨hN2, ?_, ?_, ?_⟩
  · obtain ⟨e', he'⟩ := findSome?_of_mem
      (checkProof consumeId createId (applyChain D consumeId createId rm1 txs))
      tx2.proofs p2 _ hp2 hchk
    exact ⟨e', by unfold ResourceMachine.apply; rw [he']⟩
  · exact apply_nullifier_mono D consumeId createId _ tx2 N hN2
  · intro pre post hsplit hpre
    unfold ResourceMachine.apply
    rw [hsplit, findSome?_prefix_none _ _ pre p2 post hpre hchk]

/-- Witness for C4 at concrete inputs: reveal nullifier `5`, then replay it
in a fresh transaction against the updated ledger. -/
theorem no_double_spend_witness :
    (5 : Nat) ∈ (applyChain 1 10 20
        (ResourceMachine.apply 1 10 20
          (⟨{0}, ∅, [], CommitmentTree.new 1 []⟩ : ResourceMachine Nat)
          ⟨[⟨10, true, 0, 5, 0⟩], 0⟩).2 []).nullifiers
      ∧ (∃ e, (ResourceMachine.apply 1 10 20
          (applyChain 1 10 20
            (ResourceMachine.apply 1 10 20
              (⟨{0}, ∅, [], CommitmentTree.new 1 []⟩ : ResourceMachine Nat)
              ⟨[⟨10, true, 0, 5, 0⟩], 0⟩).2 [])
          ⟨[⟨10, true, 0, 5, 0⟩], 0⟩).1 = some e)
      ∧ (5 : Nat) ∈ (ResourceMachine.apply 1 10 20
          (applyChain 1 10 20
            (ResourceMachine.apply 1 10 20
              (⟨{0}, ∅, [], CommitmentTree.new 1 []⟩ : ResourceMachine Nat)
              ⟨[⟨10, true, 0, 5, 0⟩], 0⟩).2 [])
          ⟨[⟨10, true, 0, 5, 0⟩], 0⟩).2.nullifiers
      ∧ (ResourceMachine.apply 1 10 20
          (applyChain 1 10 20
            (ResourceMachine.apply 1 10 20
              (⟨{0}, ∅, [], CommitmentTree.new 1 []⟩ : ResourceMachine Nat)
              ⟨[⟨10, true, 0, 5, 0⟩], 0⟩).2 [])
          ⟨[⟨10, true, 0, 5, 0⟩], 0⟩).1
        = some (.revealedNullifier 5) := by
  have h := no_double_spend 1 10 20
    ⟨{0}, ∅, [], CommitmentTree.new 1 []⟩
    (ResourceMachine.apply 1 10 20
      (⟨{0}, ∅, [], CommitmentTree.new 1 []⟩ : ResourceMachine Nat)
      ⟨[⟨10, true, 0, 5, 0⟩], 0⟩).2
    ⟨[⟨10, true, 0, 5, 0⟩], 0⟩ ⟨[⟨10, true, 0, 5, 0⟩], 0⟩ []
    ⟨10, true, 0, 5, 0⟩ ⟨10, true, 0, 5, 0⟩ 5
    (by decide) (by decide) (by decide) (by decide) (by decide) (by decide)
    (by decide) (by decide) (by decide)
  exact ⟨h.1, h.2.1, h.2.2.1, h.2.2.2 [] [] rfl (by simp)⟩

/-- C5: no duplicate creation across transactions.  If applying `tx1` (which
creates commitment `C` through a creation proof) succeeds, then after any
further sequence of transactions: `C` is still in the commitment list;
applying any transaction `tx2` containing a verifying creation proof for the
same `C` fails; and when that proof is the first failing check the error is
exactly `DuplicateCommitment C`.  (The two image ids are distinct in the
deployed machine, which the `hids` hypothesis records.) -/
theorem no_duplicate_creation {Digest : Type} [DecidableEq Digest]
    [Hashable Digest] (D : Nat) (consumeId createId : Digest)
    (hids : createId ≠ consumeId)
    (rm0 rm1 : ResourceMachine Digest) (tx1 tx2 : Transaction Digest)
    (txs : List (Transaction Digest)) (p1 p2 : ProofRecord Digest) (C : Digest)
    (h1 : ResourceMachine.apply D consumeId createId rm0 tx1 = (none, rm1))
    (hp1 : p1 ∈ tx1.proofs) (hp1c : p1.imageId = createId)
    (hp1n : p1.outCommitment = C)
    (hp2 : p2 ∈ tx2.proofs) (hp2c : p2.imageId = createId)
    (hp2v : p2.verifies = true) (hp2n : p2.outCommitment = C) :
    C ∈ (applyChain D consumeId createId rm1 txs).commitments
      ∧ (∃ e, (ResourceMachine.apply D consumeId createId
          (applyChain D consumeId createId rm1 txs) tx2).1 = some e)
      ∧ ∀ pre post, tx2.proofs = pre ++ p2 :: post →
          (∀ q ∈ pre, checkProof consumeId createId
            (applyChain D consumeId createId rm1 txs) q = none) →
          (ResourceMachine.apply D consumeId createId
            (applyChain D consumeId createId rm1 txs) tx2).1
            = some (.duplicateCommitment C) := by
  have hok : (ResourceMachine.apply D consumeId createId rm0 tx1).1 = none := by
    rw [h1]
  have hrm1 : (ResourceMachine.apply D consumeId createId rm0 tx1).2 = rm1 := by
    rw [h1]
  have hC1 : C ∈ rm1.commitments := by
    rw [← hrm1, ← hp1n]
    exact apply_ok_commitment_mem D consumeId createId rm0 tx1 p1 hok hp1 hp1c
      (by rw [hp1c]; exact hids)
  have hC2 : C ∈ (applyChain D consumeId createId rm1 txs).commitments :=
    applyChain_commitment_mono D consumeId createId C txs rm1 hC1
  have hchk : checkProof consumeId createId
      (applyChain D consumeId createId rm1 txs) p2
      = some (.duplicateCommitment C) := by
    rw [← hp2n]
    exact checkProof_duplicate consumeId createId _ p2 hp2v hp2c
      (by rw [hp2c]; exact hids) (by rw [hp2n]; exact hC2)
  refine ⟨hC2, ?_, ?_⟩
  · obtain ⟨e', he'⟩ := findSome?_of_mem
      (checkProof consumeId createId (applyChain D consumeId createId rm1 txs))
      tx2.proofs p2 _ hp2 hchk
    exact ⟨e', by unfold ResourceMachine.apply; rw [he']⟩
  · intro pre post hsplit hpre
    unfold ResourceMachine.apply
    rw [hsplit, findSome?_prefix_none _ _ pre p2 post hpre hchk]

/-- Witness for C5 at concrete inputs: create commitment `7`, then try to
create it again against the updated ledger. -/
theorem no_duplicate_creation_witness :
    (7 : Nat) ∈ (applyChain 1 10 20
        (ResourceMachine.apply 1 10 20
          (⟨{0}, ∅, [], CommitmentTree.new 1 []⟩ : ResourceMachine Nat)
          ⟨[⟨20, true, 0, 0, 7⟩], 0⟩).2 []).commitments
      ∧ (∃ e, (ResourceMachine.apply 1 10 20
          (applyChain 1 10 20
            (ResourceMachine.apply 1 10 20
              (⟨{0}, ∅, [], CommitmentTree.new 1 []⟩ : ResourceMachine Nat)
              ⟨[⟨20, true, 0, 0, 7⟩], 0⟩).2 [])
          ⟨[⟨20, true, 0, 0, 7⟩], 0⟩).1 = some e)
      ∧ (ResourceMachine.apply 1 10 20
          (applyChain 1 10 20
            (ResourceMachine.apply 1 10 20
              (⟨{0}, ∅, [], CommitmentTree.new 1 []⟩ : ResourceMachine Nat)
              ⟨[⟨20, true, 0, 0, 7⟩], 0⟩).2 [])
          ⟨[⟨20, true, 0, 0, 7⟩], 0⟩).1
        = some (.duplicateCommitment 7) := by
  have h := no_duplicate_creation 1 10 20 (by decide)
    ⟨{0}, ∅, [], CommitmentTree.new 1 []⟩
    (ResourceMachine.apply 1 10 20
      (⟨{0}, ∅, [], CommitmentTree.new 1 []⟩ : ResourceMachine Nat)
      ⟨[⟨20, true, 0, 0, 7⟩], 0⟩).2
    ⟨[⟨20, true, 0, 0, 7⟩], 0⟩ ⟨[⟨20, true, 0, 0, 7⟩], 0⟩ []
    ⟨20, true, 0, 0, 7⟩ ⟨20, true, 0, 0, 7⟩ 7
    (by decide) (by decide) (by decide) (by decide) (by decide) (by decide)
    (by decide) (by decide)
  exact ⟨h.1, h.2.1, h.2.2 [] [] rfl (by simp)⟩

/-- C9: intra-transaction duplicates are not rejected.  The verify pass
checks each proof only against the pre-transaction ledger state, so a single
transaction carrying two consumption proofs that reveal the same fresh
nullifier (roots known, proofs verifying) is accepted rather than rejected
with `RevealedNullifier`; likewise a single transaction carrying two creation
proofs with identical commitments is accepted. -/
theorem intra_tx_duplicates_accepted :
    (ResourceMachine.apply 1 10 20
        (⟨{0}, ∅, [], CommitmentTree.new 1 []⟩ : ResourceMachine Nat)
        ⟨[⟨10, true, 0, 5, 0⟩, ⟨10, true, 0, 5, 0⟩], 0⟩).1 = none
      ∧ (ResourceMachine.apply 1 10 20
          (⟨{0}, ∅, [], CommitmentTree.new 1 []⟩ : ResourceMachine Nat)
          ⟨[⟨20, true, 0, 0, 7⟩, ⟨20, true, 0, 0, 7⟩], 0⟩).1 = none := by
  constructor <;> decide

end Aarm

namespace Aarm

/-- C8: key-mismatch failure.  For every resource and every nullifier secret
key whose public key does not match the resource's recorded nullifier-key
commitment, `nullifier` returns `None` rather than a digest, and
`Transaction::add_input` called with such a key returns the
`IncorrectNullifierSecretKey` error with the transaction left exactly as it
was — no proof record appended (and no delta update either). -/
theorem add_input_key_mismatch {Digest Nsk : Type} [DecidableEq Digest]
    (public_key : Nsk → Digest) (commitmentHash : Resource Digest → Digest)
    (nullifierHash : Digest → Nsk → Digest) (deltaFn : Resource Digest → Int)
    (resourceProof : Option Unit) (complianceProof : Option (ProofRecord Digest))
    (tx : Transaction Digest) (path : MerklePath Digest)
    (resource : Resource Digest) (nsk : Nsk)
    (hmismatch : public_key nsk ≠ resource.npk) :
    Resource.nullifier public_key commitmentHash nullifierHash resource nsk
        = none
      ∧ Transaction.add_input public_key commitmentHash nullifierHash deltaFn
          resourceProof complianceProof tx path resource nsk
        = (some (.incorrectNullifierSecretKey nsk), tx) := by
  have hnul : Resource.nullifier public_key commitmentHash nullifierHash
      resource nsk = none := by
    unfold Resource.nullifier
    rw [if_neg hmismatch]
  refine ⟨hnul, ?_⟩
  unfold Transaction.add_input
  rw [hnul]
  rfl

/-- Witness for C8 at a concrete input: the identity public-key map, a
resource whose key commitment is `1`, and the non-matching secret `2`. -/
theorem add_input_key_mismatch_witness :
    Resource.nullifier (fun n : Nat => n) (fun _ => 0) (fun a b => a + b)
        (⟨0, 0, 0, 0, false, 0, 1, 0⟩ : Resource Nat) 2 = none
      ∧ Transaction.add_input (fun n : Nat => n) (fun _ => 0)
          (fun a b => a + b) (fun _ => 0) none none
          (⟨[], 0⟩ : Transaction Nat) ⟨[], 0⟩
          (⟨0, 0, 0, 0, false, 0, 1, 0⟩ : Resource Nat) 2
        = (some (.incorrectNullifierSecretKey 2), ⟨[], 0⟩) :=
  add_input_key_mismatch (fun n : Nat => n) (fun _ => 0) (fun a b => a + b)
    (fun _ => 0) none none ⟨[], 0⟩ ⟨[], 0⟩ ⟨0, 0, 0, 0, false, 0, 1, 0⟩ 2
    (by decide)

/-- C6 counterexample: in `native/aarm_core/src/merkle_path.rs`, the
`Hashable::combine` for `Digest` takes no height argument, so combining the
same pair of child digests at two different tree levels yields the *same*
parent digest, not two different ones.  Concretely (with the external hash
instantiated by the injective `Nat.pair`): the digest obtained by combining
the pair `(5, 7)` at level 0 of a one-level path equals the digest obtained
by combining the same pair `(5, 7)` at level 1 of a two-level path whose
level-0 step produces `5`. -/
theorem native_combine_not_height_separated :
    NativeMerklePath.root Nat.pair ⟨[(7, false)]⟩ 5
      = NativeMerklePath.root Nat.pair ⟨[(2, false), (7, false)]⟩ 1 := by
  decide

/-- C6 amended: the `Digest` combine of `native/aarm_core/src/merkle_path.rs`
is not height-parameterized; `MerklePath::root` folds one fixed two-argument
combine over the path, so for any hash the root computation is uniform across
levels — splitting the path anywhere composes, which is exactly the absence
of per-level domain separation.  (Height-parameterized combining appears only
in the `host-old` commitment tree, whose `Hashable::combine` takes the row
height.) -/
theorem native_root_level_uniform {Digest : Type}
    (hash2 : Digest → Digest → Digest) (p q : List (Digest × Bool))
    (leaf : Digest) :
    NativeMerklePath.root hash2 ⟨p ++ q⟩ leaf
      = NativeMerklePath.root hash2 ⟨q⟩ (NativeMerklePath.root hash2 ⟨p⟩ leaf) := by
  unfold NativeMerklePath.root
  exact List.foldl_append _ _ p q

end Aarm


